import Mathlib

/-!
Verification development for the multi-project incremental build orchestrator
(tsbuild). The definitions below are a shallow embedding of the engine in
src/src/compiler/tsbuild.ts: timestamps are integers, the host file system is
an association list from file names to file data, external collaborators
(config parser, program builder, build-info reader, clock) are supplied as an
explicit host structure, and every stateful function threads the solution
builder state and an explicit log of host write effects.
-/

namespace TsBuild

/-- Project identity: resolved config file paths double as canonical keys
(path canonicalization is modelled as the identity). -/
abbrev Key := String

/-- A tiny association map with string keys, mirroring the createConfigFileMap
maps of the engine. get returns the first binding; set prepends after erasing
the key; delete erases the key. -/
def SMap (α : Type) : Type := List (Key × α)

namespace SMap

def empty {α : Type} : SMap α := []

def get {α : Type} (m : SMap α) (k : Key) : Option α :=
  match m with
  | [] => none
  | (k2, v) :: rest => if k2 = k then some v else get rest k

def delete {α : Type} (m : SMap α) (k : Key) : SMap α :=
  match m with
  | [] => []
  | (k2, v) :: rest => if k2 = k then delete rest k else (k2, v) :: delete rest k

def set {α : Type} (m : SMap α) (k : Key) (v : α) : SMap α :=
  (k, v) :: m.delete k

def hasKey {α : Type} (m : SMap α) (k : Key) : Bool :=
  (m.get k).isSome

def isEmpty {α : Type} (m : SMap α) : Bool :=
  match m with
  | [] => true
  | _ :: _ => false

instance {α : Type} [DecidableEq α] : DecidableEq (SMap α) := by
  unfold SMap; infer_instance

@[simp] theorem get_empty {α : Type} (k : Key) : (empty : SMap α).get k = none := rfl

theorem get_delete {α : Type} : ∀ (m : SMap α) (k k2 : Key),
    (m.delete k).get k2 = if k = k2 then none else m.get k2
  | [], k, k2 => by simp [delete, get]
  | (a, v) :: tl, k, k2 => by
    by_cases h1 : a = k
    · by_cases h2 : k = k2
      · simp [delete, h1, h2, get_delete tl k2 k2]
      · have h3 : ¬ a = k2 := fun hh => h2 (h1.symm.trans hh)
        simp [delete, get, h1, h2, h3, get_delete tl k k2]
    · by_cases h2 : a = k2
      · have h3 : ¬ k = k2 := fun hh => h1 (h2.trans hh.symm)
        have h4 : ¬ k2 = k := fun hh => h1 (h2.trans hh)
        simp [delete, get, h1, h2, h3, h4, get_delete tl k k2]
      · simp [delete, get, h1, h2, get_delete tl k k2]

@[simp] theorem get_delete_self {α : Type} (m : SMap α) (k : Key) :
    (m.delete k).get k = none := by simp [get_delete]

theorem get_delete_ne {α : Type} (m : SMap α) {k k2 : Key} (h : k ≠ k2) :
    (m.delete k).get k2 = m.get k2 := by simp [get_delete, h]

@[simp] theorem get_set_self {α : Type} (m : SMap α) (k : Key) (v : α) :
    (m.set k v).get k = some v := by simp [set, get]

theorem get_set_ne {α : Type} (m : SMap α) {k k2 : Key} (v : α) (h : k ≠ k2) :
    (m.set k v).get k2 = m.get k2 := by
  simp [set, get, h, get_delete, fun hh => h hh]

theorem get_set {α : Type} (m : SMap α) (k k2 : Key) (v : α) :
    (m.set k v).get k2 = if k = k2 then some v else m.get k2 := by
  by_cases h : k = k2
  · subst h; simp
  · simp [h, get_set_ne m v h]

end SMap

/-- The time lattice: Date is modelled by an integer of milliseconds. -/
abbrev Time := Int

/-- Constant minimumDate of the engine. -/
def minimumDate : Time := -8640000000000000

/-- Constant maximumDate of the engine. -/
def maximumDate : Time := 8640000000000000

/-- Modelled from the spec: the modification time of a missing file is a fixed
sentinel earlier than any real time (the constant missingFileModifiedTime is
defined outside this repository slice). -/
def missingFileModifiedTime : Time := minimumDate

/-- Function newer of the engine: the later of two dates. -/
def newer (date1 date2 : Time) : Time :=
  if date2 > date1 then date2 else date1

/-- Modelled from the spec: isDeclarationFile checks the .d.ts extension via
the external fileExtensionIs helper; declaration-file-ness is recorded here as
a predicate on the file name suffix. -/
def isDeclarationFile (fileName : String) : Bool :=
  fileName.endsWith ".d.ts"

/-- ConfigFileProgramReloadLevel of the engine (None < Partial < Full). -/
inductive ReloadLevel where
  | rlNone
  | rlPart
  | rlFull
deriving DecidableEq

/-- Numeric value of a reload level, used for the order None < Partial < Full. -/
def ReloadLevel.toNat : ReloadLevel → Nat
  | .rlNone => 0
  | .rlPart => 1
  | .rlFull => 2

/-- Value of an optional queue entry: absence is strictly below every level. -/
def levelValue : Option ReloadLevel → Nat
  | none => 0
  | some l => l.toNat + 1

/-- A project reference edge as it appears in a parsed configuration. -/
structure ProjectReference where
  path : String
  prepend : Bool
  circular : Bool
deriving DecidableEq

/-- ParsedCommandLine as the engine consumes it. Fields that the engine reads
through external helpers (getAllProjectOutputs, getOutputPathForBuildInfo,
canJsonReportNoInutFiles, isIncrementalCompilation) are recorded as fields
holding the result of those helpers. -/
structure ParsedCommandLine where
  fileNames : List String
  projectReferences : Option (List ProjectReference)
  errors : List String
  composite : Bool
  incrementalCompilation : Bool
  configFilePath : String
  extendedSourceFiles : List String
  allOutputs : List String
  buildInfoPath : Option String
  canReportNoInputFiles : Bool
deriving DecidableEq

/-- Data of an up-to-date status (shared by UpToDate and
UpToDateWithUpstreamTypes, whose TypeScript interfaces are identical up to the
tag). Optional fields model fields left undefined at runtime. -/
structure UpToDateData where
  newestInputFileTime : Option Time := none
  newestInputFileName : Option String := none
  newestDeclarationFileContentChangedTime : Option Time := none
  newestOutputFileTime : Option Time := none
  newestOutputFileName : Option String := none
  oldestOutputFileName : String
deriving DecidableEq

/-- UpToDateStatus of the engine, one constructor per variant. -/
inductive UpToDateStatus where
  | unbuildable (reason : String)
  | upToDate (d : UpToDateData)
  | upToDateWithUpstreamTypes (d : UpToDateData)
  | outOfDateWithPrepend (outOfDateOutputFileName : String) (newerProjectName : String)
  | outputMissing (missingOutputFileName : String)
  | outOfDateWithSelf (outOfDateOutputFileName : String) (newerInputFileName : Option String)
  | outOfDateWithUpstream (outOfDateOutputFileName : String) (newerProjectName : String)
  | upstreamOutOfDate (upstreamProjectName : String)
  | upstreamBlocked (upstreamProjectName : String)
  | computingUpstream
  | tsVersionOutputOfDate (version : String)
  | containerOnly
deriving DecidableEq

/-- BuildResultFlags of the engine, one boolean per bit flag. -/
structure BuildResultFlags where
  success : Bool := false
  declarationOutputUnchanged : Bool := false
  configFileErrors : Bool := false
  syntacticErrors : Bool := false
  typeErrors : Bool := false
  declarationEmitErrors : Bool := false
  emitErrors : Bool := false
deriving DecidableEq

/-- The AnyErrors mask: true when any error bit is set. -/
def BuildResultFlags.anyErrors (r : BuildResultFlags) : Bool :=
  r.configFileErrors || r.syntacticErrors || r.typeErrors ||
    r.declarationEmitErrors || r.emitErrors

/-- ExitStatus values the driver returns. -/
inductive ExitStatus where
  | success
  | diagnosticsPresentOutputsSkipped
  | diagnosticsPresentOutputsGenerated
  | invalidProjectOutputsSkipped
deriving DecidableEq

/-- Engine-visible build options (the fields the embedded functions read). -/
structure BuildOptions where
  dry : Bool := false
  force : Bool := false
  verbose : Bool := false
deriving DecidableEq

/-- SolutionBuilderState: the claim-relevant maps and mutable fields of the
engine state. Watch-mode fields are omitted (one-shot mode only). -/
structure SolutionBuilderState where
  options : BuildOptions
  rootNames : List String
  configFileCache : SMap (Option ParsedCommandLine)
  projectStatus : SMap UpToDateStatus
  buildInfoChecked : SMap Bool
  diagnostics : SMap (List String)
  projectPendingBuild : SMap ReloadLevel
  projectErrorsReported : SMap Bool
  buildOrder : Option (List Key)
  allProjectBuildPending : Bool
deriving DecidableEq

/-- Function addProjToQueue of the engine: raise the pending reload level of a
project, never lowering an existing entry. -/
def addProjToQueue (st : SolutionBuilderState) (proj : Key) (reloadLevel : ReloadLevel) :
    SolutionBuilderState :=
  match st.projectPendingBuild.get proj with
  | none =>
      { st with projectPendingBuild := st.projectPendingBuild.set proj reloadLevel }
  | some value =>
      if value.toNat < reloadLevel.toNat then
        { st with projectPendingBuild := st.projectPendingBuild.set proj reloadLevel }
      else
        st

/-- Apply a sequence of enqueue operations in order. -/
def applyEnqueues (st : SolutionBuilderState) (ops : List (Key × ReloadLevel)) :
    SolutionBuilderState :=
  ops.foldl (fun s op => addProjToQueue s op.1 op.2) st

theorem addProjToQueue_monotone (st : SolutionBuilderState) (proj : Key)
    (lvl : ReloadLevel) (k : Key) :
    levelValue (st.projectPendingBuild.get k) ≤
      levelValue ((addProjToQueue st proj lvl).projectPendingBuild.get k) := by
  unfold addProjToQueue
  by_cases hk : proj = k
  · subst hk
    cases h : st.projectPendingBuild.get proj with
    | none => simp [h, levelValue]
    | some v =>
      by_cases hlt : v.toNat < lvl.toNat
      · simp only [h, if_pos hlt, SMap.get_set_self]
        simp [levelValue]
        omega
      · simp [h, hlt]
  · cases h : st.projectPendingBuild.get proj with
    | none => simp [h, SMap.get_set_ne _ _ hk]
    | some v =>
      by_cases hlt : v.toNat < lvl.toNat
      · simp [h, hlt, SMap.get_set_ne _ _ hk]
      · simp [h, hlt]

theorem applyEnqueues_monotone (ops : List (Key × ReloadLevel)) :
    ∀ (st : SolutionBuilderState) (k : Key),
      levelValue (st.projectPendingBuild.get k) ≤
        levelValue ((applyEnqueues st ops).projectPendingBuild.get k) := by
  induction ops with
  | nil => intro st k; simp [applyEnqueues]
  | cons op rest ih =>
    intro st k
    have h1 := addProjToQueue_monotone st op.1 op.2 k
    have h2 := ih (addProjToQueue st op.1 op.2) k
    simpa [applyEnqueues] using le_trans h1 h2

/-- C5. The pending-build queue is monotone in the reload level: a single
enqueue never lowers the stored level of any key, any sequence of enqueues
never lowers it, and re-enqueueing with a lower or equal level leaves the
whole state unchanged. -/
theorem c5_pending_queue_monotone_reload_level :
    (∀ (st : SolutionBuilderState) (ops : List (Key × ReloadLevel)) (k : Key),
      levelValue (st.projectPendingBuild.get k) ≤
        levelValue ((applyEnqueues st ops).projectPendingBuild.get k)) ∧
    (∀ (st : SolutionBuilderState) (k : Key) (lvl v : ReloadLevel),
      st.projectPendingBuild.get k = some v → lvl.toNat ≤ v.toNat →
        addProjToQueue st k lvl = st) := by
  constructor
  · intro st ops k
    exact applyEnqueues_monotone ops st k
  · intro st k lvl v hv hle
    unfold addProjToQueue
    rw [hv]
    simp only [if_neg (by omega : ¬ v.toNat < lvl.toNat)]

/-- Witness for C5 at a concrete state: enqueueing Full then re-enqueueing
None keeps the level at Full and the second conjunct applies literally. -/
theorem c5_pending_queue_monotone_reload_level_witness :
    (applyEnqueues
        { options := {}, rootNames := [], configFileCache := SMap.empty,
          projectStatus := SMap.empty, buildInfoChecked := SMap.empty,
          diagnostics := SMap.empty, projectPendingBuild := SMap.empty,
          projectErrorsReported := SMap.empty, buildOrder := none,
          allProjectBuildPending := true }
        [("a", ReloadLevel.rlFull), ("a", ReloadLevel.rlNone)]).projectPendingBuild.get "a"
      = some ReloadLevel.rlFull ∧
    levelValue (SMap.empty.get "a") ≤ levelValue (some ReloadLevel.rlFull) := by
  refine ⟨by decide, ?_⟩
  have h := c5_pending_queue_monotone_reload_level.1
    { options := {}, rootNames := [], configFileCache := SMap.empty,
      projectStatus := SMap.empty, buildInfoChecked := SMap.empty,
      diagnostics := SMap.empty, projectPendingBuild := SMap.empty,
      projectErrorsReported := SMap.empty, buildOrder := none,
      allProjectBuildPending := true }
    [("a", ReloadLevel.rlFull)] "a"
  simpa [applyEnqueues, addProjToQueue, SMap.get, SMap.set, SMap.empty, SMap.delete] using h

/-- Data of a file on the host file system. -/
structure FileData where
  mtime : Time
  content : String
deriving DecidableEq

/-- The host file system: an association of file names to file data. -/
abbrev FileSystem := SMap FileData

/-- Host fileExists. -/
def fileExists (fs : FileSystem) (f : String) : Bool :=
  (fs.get f).isSome

/-- Host getModifiedTime. -/
def getModifiedTime (fs : FileSystem) (f : String) : Option Time :=
  (fs.get f).map FileData.mtime

/-- Host readFile. -/
def readFile (fs : FileSystem) (f : String) : Option String :=
  (fs.get f).map FileData.content

/-- Host writeFile: stores the text and stamps the write clock. -/
def fsWriteFile (fs : FileSystem) (f : String) (text : String) (clock : Time) : FileSystem :=
  fs.set f { mtime := clock, content := text }

/-- Host setModifiedTime: updates the timestamp of an existing file. -/
def fsSetModifiedTime (fs : FileSystem) (f : String) (t : Time) : FileSystem :=
  match fs.get f with
  | some fd => fs.set f { fd with mtime := t }
  | none => fs

/-- Host deleteFile. -/
def fsDeleteFile (fs : FileSystem) (f : String) : FileSystem :=
  fs.delete f

/-- A host write effect; reads are not logged. Dry-run purity asserts that the
log stays empty. -/
inductive HostEffect where
  | writeFile (f : String)
  | setModifiedTime (f : String) (t : Time)
  | deleteFile (f : String)
deriving DecidableEq

/-- An output file produced by the external emitters. -/
structure OutputFile where
  name : String
  text : String
deriving DecidableEq

/-- Result of the external program builder for one project: the staged
diagnostics the engine inspects and the emitted output files. -/
structure ProgramOutcome where
  configFileParsingDiagnostics : List String := []
  optionsDiagnostics : List String := []
  globalDiagnostics : List String := []
  syntacticDiagnostics : List String := []
  semanticDiagnostics : List String := []
  declarationDiagnostics : List String := []
  outputFiles : List OutputFile := []

/-- The external collaborators of the engine: the config parser results, the
clock, the compiler version, the build-info reader, the program builder, the
build-info emitter, and the wildcard re-expansion used by Partial reloads. -/
structure SolutionHost where
  configs : SMap (Option ParsedCommandLine)
  now : Time
  tsVersion : String
  getBuildInfoVersion : String → Option String
  createProgram : Key → FileSystem → ProgramOutcome
  emitUsingBuildInfo : Key → FileSystem → Sum String (List OutputFile)
  expandFileNames : Key → List String

/-- resolveProjectName and toResolvedConfigFilePath: path resolution and
canonicalization are modelled as the identity on keys. -/
def resolveProjectName (name : String) : Key := name

/-- Function parseConfigFile of the engine: consult the config cache, else ask
the external parser and cache the parsed config (or the diagnostic, modelled
as none). -/
def parseConfigFile (env : SolutionHost) (st : SolutionBuilderState) (configFileName : Key) :
    SolutionBuilderState × Option ParsedCommandLine :=
  match st.configFileCache.get configFileName with
  | some value => (st, value)
  | none =>
      let parsed := (env.configs.get configFileName).bind id
      ({ st with configFileCache := st.configFileCache.set configFileName parsed }, parsed)

/-- The config the external parser yields for a key (parse failures are none). -/
def envConfig (env : SolutionHost) (k : Key) : Option ParsedCommandLine :=
  (env.configs.get k).bind id

/-- A config cache is consistent when every cached entry agrees with the
external parser; this holds for the empty cache and is preserved by
parseConfigFile. -/
def cacheConsistent (env : SolutionHost) (st : SolutionBuilderState) : Prop :=
  ∀ k e, st.configFileCache.get k = some e → e = envConfig env k

theorem parseConfigFile_of_consistent (env : SolutionHost) (st : SolutionBuilderState)
    (k : Key) (h : cacheConsistent env st) :
    (parseConfigFile env st k).2 = envConfig env k ∧
      cacheConsistent env (parseConfigFile env st k).1 := by
  unfold parseConfigFile
  cases hc : st.configFileCache.get k with
  | some value =>
    refine ⟨h k value hc, ?_⟩
    simpa [hc] using h
  | none =>
    refine ⟨rfl, ?_⟩
    intro k2 e he
    simp only [SMap.get_set] at he
    by_cases hk : k = k2
    · subst hk
      simp at he
      exact he.symm
    · rw [if_neg hk] at he
      exact h k2 e he

/-- The reference edges of a project, per the external parser: the resolved
paths of its project references. -/
def refsOf (env : SolutionHost) (a : Key) : List Key :=
  (((envConfig env a).bind ParsedCommandLine.projectReferences).getD []).map
    (fun r => resolveProjectName r.path)

/-- One reference edge in the project graph. -/
def refEdge (env : SolutionHost) (a b : Key) : Prop :=
  b ∈ refsOf env a

/-- Graph reachability along reference edges. -/
def Reaches (env : SolutionHost) : Key → Key → Prop :=
  Relation.ReflTransGen (refEdge env)

/-- Accumulator of the createBuildOrder DFS: the threaded engine state plus
the temporary and permanent mark sets, the circularity report stack, the
emitted order, and the emitted cycle diagnostics (each diagnostic records the
report stack at the point of detection). -/
structure BuildOrderAcc where
  st : SolutionBuilderState
  temporaryMarks : List Key
  permanentMarks : List Key
  circularityReportStack : List String
  buildOrder : List Key
  cycleDiagnostics : List (List String)
deriving DecidableEq

/-- The loop over the project references of one project inside visit, with the
recursive call supplied as a function. -/
def visitRefs (v : BuildOrderAcc → Key → Bool → Option BuildOrderAcc) :
    BuildOrderAcc → List ProjectReference → Bool → Option BuildOrderAcc
  | acc, [], _ => some acc
  | acc, ref :: rest, inCircularContext =>
    match v acc (resolveProjectName ref.path) (inCircularContext || ref.circular) with
    | none => none
    | some acc2 => visitRefs v acc2 rest inCircularContext

/-- The not-yet-visited path of one visit frame: set the temporary mark, push
the report stack, parse the config, recurse over the references (an absent or
unparseable reference list loops over the empty list), then pop the stack,
set the permanent mark and append the project to the order. -/
def visitFresh (env : SolutionHost) (v : BuildOrderAcc → Key → Bool → Option BuildOrderAcc)
    (acc : BuildOrderAcc) (configFileName : Key) (inCircularContext : Bool) :
    Option BuildOrderAcc :=
  let projPath := resolveProjectName configFileName
  let acc1 := { acc with
    temporaryMarks := projPath :: acc.temporaryMarks,
    circularityReportStack := acc.circularityReportStack ++ [configFileName] }
  let pr := parseConfigFile env acc1.st configFileName
  let acc2 := { acc1 with st := pr.1 }
  let refs := (pr.2.bind ParsedCommandLine.projectReferences).getD []
  (visitRefs v acc2 refs inCircularContext).map (fun acc3 =>
    { acc3 with
      circularityReportStack := acc3.circularityReportStack.dropLast,
      permanentMarks := projPath :: acc3.permanentMarks,
      buildOrder := acc3.buildOrder ++ [configFileName] })

/-- Function visit of createBuildOrder: three-color DFS with cycle reporting.
The fuel argument is a recursion bound of the model; none signals exhaustion
and a sufficient bound is proved below. -/
def visit (env : SolutionHost) : Nat → BuildOrderAcc → Key → Bool → Option BuildOrderAcc
  | 0, _, _, _ => none
  | Nat.succ fuel, acc, configFileName, inCircularContext =>
    let projPath := resolveProjectName configFileName
    if acc.permanentMarks.contains projPath then some acc
    else if acc.temporaryMarks.contains projPath then
      (if inCircularContext then some acc
       else some { acc with
         cycleDiagnostics := acc.cycleDiagnostics ++ [acc.circularityReportStack] })
    else visitFresh env (visit env fuel) acc configFileName inCircularContext

/-- The loop over roots in createBuildOrder. -/
def visitRoots (v : BuildOrderAcc → Key → Bool → Option BuildOrderAcc) :
    BuildOrderAcc → List Key → Option BuildOrderAcc
  | acc, [] => some acc
  | acc, r :: rest =>
    match v acc r false with
    | none => none
    | some acc2 => visitRoots v acc2 rest

/-- The initial accumulator of a createBuildOrder run. -/
def initAcc (st : SolutionBuilderState) : BuildOrderAcc :=
  { st := st, temporaryMarks := [], permanentMarks := [],
    circularityReportStack := [], buildOrder := [], cycleDiagnostics := [] }

/-- Function createBuildOrder of the engine. -/
def createBuildOrder (env : SolutionHost) (fuel : Nat) (st : SolutionBuilderState)
    (roots : List Key) : Option BuildOrderAcc :=
  visitRoots (visit env fuel) (initAcc st) roots

/-- Function getBuildOrder of the engine: memoized build order over the
resolved root names. -/
def getBuildOrder (env : SolutionHost) (fuel : Nat) (st : SolutionBuilderState) :
    Option (SolutionBuilderState × List Key) :=
  match st.buildOrder with
  | some bo => some (st, bo)
  | none =>
      (createBuildOrder env fuel st (st.rootNames.map resolveProjectName)).map
        (fun acc => ({ acc.st with buildOrder := some acc.buildOrder }, acc.buildOrder))

/-- Function getBuildOrderFor of the engine: whole order, or the restricted
order of a requested sub-project; the inner none is the invalid-project case.
An empty requested name is falsy in the source and treated as absent. -/
def getBuildOrderFor (env : SolutionHost) (fuel : Nat) (st : SolutionBuilderState)
    (project : Option String) : Option (SolutionBuilderState × Option (List Key)) :=
  match project with
  | none => (getBuildOrder env fuel st).map (fun p => (p.1, some p.2))
  | some proj =>
      if proj = "" then (getBuildOrder env fuel st).map (fun p => (p.1, some p.2))
      else
        let resolvedProject := resolveProjectName proj
        match getBuildOrder env fuel st with
        | none => none
        | some (st1, bo) =>
          if bo.contains resolvedProject then
            (createBuildOrder env fuel st1 [resolvedProject]).map
              (fun acc => (acc.st, some acc.buildOrder))
          else some (st1, none)

/-- b occurs strictly before a in the list l. -/
def Before (l : List Key) (b a : Key) : Prop :=
  ∃ i j : Nat, i < j ∧ l.get? i = some b ∧ l.get? j = some a

/-- No reference edge anywhere in the project graph carries the circular flag. -/
def NoCircular (env : SolutionHost) : Prop :=
  ∀ k cfg, envConfig env k = some cfg →
    ∀ ref ∈ cfg.projectReferences.getD [], ref.circular = false

/-- The list l is a strict reverse-topological order: every reference of every
listed project occurs strictly before it. -/
def StrongOrd (env : SolutionHost) (l : List Key) : Prop :=
  ∀ a ∈ l, ∀ b ∈ refsOf env a, Before l b a

/-- Invariant of the createBuildOrder DFS accumulator. -/
structure GoodAcc (env : SolutionHost) (acc : BuildOrderAcc) : Prop where
  cache : cacheConsistent env acc.st
  nodup : acc.buildOrder.Nodup
  order_iff_perm : ∀ a, a ∈ acc.buildOrder ↔ a ∈ acc.permanentMarks
  temp_stack : ∀ k, k ∈ acc.temporaryMarks → k ∉ acc.permanentMarks →
    k ∈ acc.circularityReportStack
  chain : List.Chain' (refEdge env) acc.circularityReportStack
  order_edges : ∀ a ∈ acc.buildOrder, ∀ b ∈ refsOf env a,
    Before acc.buildOrder b a ∨ Reaches env b a
  strong : NoCircular env → acc.cycleDiagnostics = [] → StrongOrd env acc.buildOrder

theorem before_append_right (l l2 : List Key) (b a : Key) (h : Before l b a) :
    Before (l ++ l2) b a := by
  obtain ⟨i, j, hij, hb, ha⟩ := h
  have hjl : j < l.length := (List.get?_eq_some.mp ha).1
  have hil : i < l.length := (List.get?_eq_some.mp hb).1
  exact ⟨i, j, hij, by rw [List.get?_append hil]; exact hb,
    by rw [List.get?_append hjl]; exact ha⟩

theorem before_extend (l : List Key) (b a : Key) (h : b ∈ l) :
    Before (l ++ [a]) b a := by
  obtain ⟨i, hb⟩ := List.mem_iff_get?.mp h
  have hil : i < l.length := (List.get?_eq_some.mp hb).1
  refine ⟨i, l.length, hil, ?_, ?_⟩
  · rw [List.get?_append hil]; exact hb
  · exact List.get?_concat_length l a

theorem mem_of_before (l : List Key) (b a : Key) (h : Before l b a) :
    b ∈ l ∧ a ∈ l := by
  obtain ⟨i, j, _, hb, ha⟩ := h
  exact ⟨List.get?_mem hb, List.get?_mem ha⟩

theorem before_irrefl (l : List Key) (hnd : l.Nodup) (a : Key) (h : Before l a a) :
    False := by
  obtain ⟨i, j, hij, ha, ha2⟩ := h
  have hil : i < l.length := (List.get?_eq_some.mp ha).1
  have := List.get?_inj hil hnd (ha.trans ha2.symm)
  omega

theorem before_trans (l : List Key) (hnd : l.Nodup) (a b c : Key)
    (h1 : Before l b a) (h2 : Before l c b) : Before l c a := by
  obtain ⟨i, j, hij, hb, ha⟩ := h1
  obtain ⟨i2, j2, hij2, hc, hb2⟩ := h2
  have hj2l : j2 < l.length := (List.get?_eq_some.mp hb2).1
  have : j2 = i := List.get?_inj hj2l hnd (hb2.trans hb.symm)
  exact ⟨i2, j, by omega, hc, ha⟩

theorem chain_reaches_last (env : SolutionHost) :
    ∀ (l : List Key), List.Chain' (refEdge env) l →
      ∀ x ∈ l, ∀ z, l.getLast? = some z → Reaches env x z := by
  intro l
  induction l with
  | nil => intro _ x hx; exact absurd hx (List.not_mem_nil x)
  | cons hd tl ih =>
    intro hch x hx z hz
    cases tl with
    | nil =>
      simp at hx hz
      subst hx; subst hz
      exact Relation.ReflTransGen.refl
    | cons hd2 tl2 =>
      have hch2 : List.Chain' (refEdge env) (hd2 :: tl2) := (List.chain'_cons.mp hch).2
      have hedge : refEdge env hd hd2 := (List.chain'_cons.mp hch).1
      have hz2 : (hd2 :: tl2).getLast? = some z := by
        rw [List.getLast?_cons_cons] at hz
        exact hz
      rcases List.mem_cons.mp hx with h | h
      · subst h
        exact Relation.ReflTransGen.head hedge (ih hch2 hd2 (List.mem_cons_self _ _) z hz2)
      · exact ih hch2 x h z hz2

theorem contains_iff_mem (l : List Key) (a : Key) : l.contains a = true ↔ a ∈ l := by
  simp [List.contains, List.elem_iff]

/-- Postcondition of one visit call on project p. -/
structure VisitOut (env : SolutionHost) (acc acc2 : BuildOrderAcc) (p : Key) : Prop where
  good : GoodAcc env acc2
  stack_eq : acc2.circularityReportStack = acc.circularityReportStack
  temp_mono : ∀ k, k ∈ acc.temporaryMarks → k ∈ acc2.temporaryMarks
  perm_mono : ∀ k, k ∈ acc.permanentMarks → k ∈ acc2.permanentMarks
  order_append : ∃ d, acc2.buildOrder = acc.buildOrder ++ d
  diag_append : ∃ d, acc2.cycleDiagnostics = acc.cycleDiagnostics ++ d
  visited : p ∈ acc2.permanentMarks ∨ p ∈ acc.circularityReportStack
  no_diag_perm : NoCircular env → acc2.cycleDiagnostics = acc.cycleDiagnostics →
    p ∈ acc2.permanentMarks
  frozen : ∀ k, k ∈ acc.temporaryMarks → k ∉ acc.permanentMarks → k ∉ acc2.permanentMarks

/-- The visit contract: the postcondition holds whenever the invariant, the
stack-edge condition and the circular-flag condition hold at the call. -/
def VisitContract (env : SolutionHost)
    (v : BuildOrderAcc → Key → Bool → Option BuildOrderAcc) : Prop :=
  ∀ acc p inC acc2, v acc p inC = some acc2 → GoodAcc env acc →
    (∀ la, acc.circularityReportStack.getLast? = some la → refEdge env la p) →
    (NoCircular env → inC = false) →
    VisitOut env acc acc2 p

/-- Postcondition of the reference loop of one visit frame. -/
structure VisitRefsOut (env : SolutionHost) (acc accN : BuildOrderAcc)
    (refs : List ProjectReference) : Prop where
  good : GoodAcc env accN
  stack_eq : accN.circularityReportStack = acc.circularityReportStack
  temp_mono : ∀ k, k ∈ acc.temporaryMarks → k ∈ accN.temporaryMarks
  perm_mono : ∀ k, k ∈ acc.permanentMarks → k ∈ accN.permanentMarks
  order_append : ∃ d, accN.buildOrder = acc.buildOrder ++ d
  diag_append : ∃ d, accN.cycleDiagnostics = acc.cycleDiagnostics ++ d
  refs_visited : ∀ ref ∈ refs, resolveProjectName ref.path ∈ accN.permanentMarks ∨
    resolveProjectName ref.path ∈ acc.circularityReportStack
  no_diag_perm : NoCircular env → accN.cycleDiagnostics = acc.cycleDiagnostics →
    ∀ ref ∈ refs, resolveProjectName ref.path ∈ accN.permanentMarks
  frozen : ∀ k, k ∈ acc.temporaryMarks → k ∉ acc.permanentMarks → k ∉ accN.permanentMarks

theorem append_eq_self_nil {α : Type} {l d : List α} (h : l ++ d = l) : d = [] := by
  have := congrArg List.length h
  simp at this
  exact this

theorem visitRefs_spec (env : SolutionHost)
    (v : BuildOrderAcc → Key → Bool → Option BuildOrderAcc)
    (hv : VisitContract env v) :
    ∀ (refs : List ProjectReference) (acc : BuildOrderAcc) (inC : Bool)
      (accN : BuildOrderAcc),
      visitRefs v acc refs inC = some accN →
      GoodAcc env acc →
      (∀ ref ∈ refs, ∀ la, acc.circularityReportStack.getLast? = some la →
        refEdge env la (resolveProjectName ref.path)) →
      (NoCircular env → inC = false) →
      (NoCircular env → ∀ ref ∈ refs, ref.circular = false) →
      VisitRefsOut env acc accN refs := by
  intro refs
  induction refs with
  | nil =>
    intro acc inC accN hrun hgood _ _ _
    simp only [visitRefs] at hrun
    cases hrun
    exact {
      good := hgood, stack_eq := rfl,
      temp_mono := fun k hk => hk, perm_mono := fun k hk => hk,
      order_append := ⟨[], (List.append_nil _).symm⟩,
      diag_append := ⟨[], (List.append_nil _).symm⟩,
      refs_visited := fun ref h => absurd h (List.not_mem_nil ref),
      no_diag_perm := fun _ _ ref h => absurd h (List.not_mem_nil ref),
      frozen := fun _ _ hk => hk }
  | cons ref rest ih =>
    intro acc inC accN hrun hgood hlast hinC hcirc
    simp only [visitRefs] at hrun
    cases hcall : v acc (resolveProjectName ref.path) (inC || ref.circular) with
    | none => rw [hcall] at hrun; cases hrun
    | some acc2 =>
      rw [hcall] at hrun
      have hinC2 : NoCircular env → (inC || ref.circular) = false := by
        intro hnc
        rw [hinC hnc, hcirc hnc ref (List.mem_cons_self _ _)]
        rfl
      have out1 : VisitOut env acc acc2 (resolveProjectName ref.path) :=
        hv acc _ _ acc2 hcall hgood (hlast ref (List.mem_cons_self _ _)) hinC2
      have hlast2 : ∀ r ∈ rest, ∀ la, acc2.circularityReportStack.getLast? = some la →
          refEdge env la (resolveProjectName r.path) := by
        intro r hr la hla
        rw [out1.stack_eq] at hla
        exact hlast r (List.mem_cons_of_mem _ hr) la hla
      have out2 : VisitRefsOut env acc2 accN rest :=
        ih acc2 inC accN hrun out1.good hlast2 hinC
          (fun hnc r hr => hcirc hnc r (List.mem_cons_of_mem _ hr))
      obtain ⟨d1, hd1⟩ := out1.diag_append
      obtain ⟨d2, hd2⟩ := out2.diag_append
      have hdiag_unchanged : accN.cycleDiagnostics = acc.cycleDiagnostics →
          acc2.cycleDiagnostics = acc.cycleDiagnostics ∧
          accN.cycleDiagnostics = acc2.cycleDiagnostics := by
        intro h
        rw [hd2, hd1] at h
        rw [List.append_assoc] at h
        have : d1 ++ d2 = [] := append_eq_self_nil h
        have hn := List.append_eq_nil.mp this
        constructor
        · rw [hd1, hn.1, List.append_nil]
        · rw [hd2, hd1, hn.1, hn.2, List.append_nil, List.append_nil]
      exact {
        good := out2.good,
        stack_eq := out2.stack_eq.trans out1.stack_eq,
        temp_mono := fun k hk => out2.temp_mono k (out1.temp_mono k hk),
        perm_mono := fun k hk => out2.perm_mono k (out1.perm_mono k hk),
        order_append := by
          obtain ⟨e1, he1⟩ := out1.order_append
          obtain ⟨e2, he2⟩ := out2.order_append
          exact ⟨e1 ++ e2, by rw [he2, he1, List.append_assoc]⟩,
        diag_append := ⟨d1 ++ d2, by rw [hd2, hd1, List.append_assoc]⟩,
        refs_visited := by
          intro r hr
          rcases List.mem_cons.mp hr with h | h
          · subst h
            rcases out1.visited with h2 | h2
            · exact Or.inl (out2.perm_mono _ h2)
            · exact Or.inr h2
          · rcases out2.refs_visited r h with h2 | h2
            · exact Or.inl h2
            · rw [out1.stack_eq] at h2
              exact Or.inr h2,
        no_diag_perm := by
          intro hnc hd r hr
          obtain ⟨hu1, hu2⟩ := hdiag_unchanged hd
          rcases List.mem_cons.mp hr with h | h
          · subst h
            exact out2.perm_mono _ (out1.no_diag_perm hnc hu1)
          · exact out2.no_diag_perm hnc hu2 r h,
        frozen := by
          intro k hk hnp
          exact out2.frozen k (out1.temp_mono k hk) (out1.frozen k hk hnp) }



/-- The accumulator at the start of the reference loop of a fresh visit
frame (temporary mark set, stack pushed, config parsed). -/
def pushAcc (env : SolutionHost) (acc : BuildOrderAcc) (p : Key) : BuildOrderAcc :=
  { st := (parseConfigFile env acc.st p).1,
    temporaryMarks := p :: acc.temporaryMarks,
    permanentMarks := acc.permanentMarks,
    circularityReportStack := acc.circularityReportStack ++ [p],
    buildOrder := acc.buildOrder,
    cycleDiagnostics := acc.cycleDiagnostics }

/-- The reference list a fresh visit frame loops over. -/
def refsFromParse (env : SolutionHost) (acc : BuildOrderAcc) (p : Key) :
    List ProjectReference :=
  ((parseConfigFile env acc.st p).2.bind ParsedCommandLine.projectReferences).getD []

/-- The accumulator a fresh visit frame returns (stack popped, permanent mark
set, project appended to the order). -/
def finishAcc (acc3 : BuildOrderAcc) (p : Key) : BuildOrderAcc :=
  { st := acc3.st, temporaryMarks := acc3.temporaryMarks,
    permanentMarks := p :: acc3.permanentMarks,
    circularityReportStack := acc3.circularityReportStack.dropLast,
    buildOrder := acc3.buildOrder ++ [p],
    cycleDiagnostics := acc3.cycleDiagnostics }

theorem visitFresh_eq (env : SolutionHost)
    (v : BuildOrderAcc → Key → Bool → Option BuildOrderAcc)
    (acc : BuildOrderAcc) (p : Key) (inC : Bool) :
    visitFresh env v acc p inC =
      (visitRefs v (pushAcc env acc p) (refsFromParse env acc p) inC).map
        (fun acc3 => finishAcc acc3 p) := rfl

theorem visitFresh_spec (env : SolutionHost)
    (v : BuildOrderAcc → Key → Bool → Option BuildOrderAcc)
    (hv : VisitContract env v)
    (acc : BuildOrderAcc) (p : Key) (inC : Bool) (accF : BuildOrderAcc)
    (hrun : visitFresh env v acc p inC = some accF)
    (hgood : GoodAcc env acc)
    (hlast : ∀ la, acc.circularityReportStack.getLast? = some la → refEdge env la p)
    (hinC : NoCircular env → inC = false)
    (hpnp : p ∉ acc.permanentMarks)
    (hpnt : p ∉ acc.temporaryMarks) :
    VisitOut env acc accF p := by
  have hparse := parseConfigFile_of_consistent env acc.st p hgood.cache
  rw [visitFresh_eq, Option.map_eq_some'] at hrun
  obtain ⟨acc3, hloop, hfin⟩ := hrun
  have hrefsOf : refsOf env p =
      (refsFromParse env acc p).map (fun r => resolveProjectName r.path) := by
    rw [refsOf, refsFromParse, ← hparse.1]
  have hg2 : GoodAcc env (pushAcc env acc p) := by
    refine ⟨hparse.2, hgood.nodup, hgood.order_iff_perm, ?_, ?_, hgood.order_edges, hgood.strong⟩
    · intro k hk hnp
      rcases List.mem_cons.mp hk with h | h
      · subst h
        simp [pushAcc]
      · exact List.mem_append_left _ (hgood.temp_stack k h hnp)
    · show List.Chain' (refEdge env) (acc.circularityReportStack ++ [p])
      rw [List.chain'_append]
      refine ⟨hgood.chain, List.chain'_singleton _, ?_⟩
      intro x hx y hy
      simp at hy
      subst hy
      exact hlast x hx
  have hchain2 : List.Chain' (refEdge env) (acc.circularityReportStack ++ [p]) := hg2.chain
  have hlast2 : ∀ ref ∈ refsFromParse env acc p, ∀ la,
      (pushAcc env acc p).circularityReportStack.getLast? = some la →
      refEdge env la (resolveProjectName ref.path) := by
    intro ref href la hla
    have hstk : (pushAcc env acc p).circularityReportStack =
        acc.circularityReportStack ++ [p] := rfl
    rw [hstk, List.getLast?_concat] at hla
    have hpla : la = p := (Option.some.inj hla).symm
    subst hpla
    show resolveProjectName ref.path ∈ refsOf env la
    rw [hrefsOf]
    exact List.mem_map_of_mem _ href
  have hcirc2 : NoCircular env → ∀ ref ∈ refsFromParse env acc p, ref.circular = false := by
    intro hnc ref href
    rw [refsFromParse, hparse.1] at href
    cases henv : envConfig env p with
    | none => rw [henv] at href; simp at href
    | some cfg =>
      rw [henv] at href
      simp only [Option.some_bind] at href
      exact hnc p cfg henv ref href
  have out := visitRefs_spec env v hv (refsFromParse env acc p) (pushAcc env acc p)
    inC acc3 hloop hg2 hlast2 hinC hcirc2
  subst hfin
  have hstack3 : acc3.circularityReportStack = acc.circularityReportStack ++ [p] := out.stack_eq
  have hpperm3 : p ∉ acc3.permanentMarks :=
    out.frozen p (List.mem_cons_self _ _) hpnp
  have hporder3 : p ∉ acc3.buildOrder := fun hmem => hpperm3 ((out.good.order_iff_perm p).mp hmem)
  have horder3 : ∃ d, acc3.buildOrder = acc.buildOrder ++ d := out.order_append
  have hdiag3 : ∃ d, acc3.cycleDiagnostics = acc.cycleDiagnostics ++ d := out.diag_append
  have hdrop : acc3.circularityReportStack.dropLast = acc.circularityReportStack := by
    rw [hstack3, List.dropLast_concat]
  refine ⟨⟨out.good.cache, ?_, ?_, ?_, ?_, ?_, ?_⟩, hdrop, ?_, ?_, ?_, ?_, ?_, ?_, ?_⟩
  · -- nodup
    show (acc3.buildOrder ++ [p]).Nodup
    rw [List.nodup_append]
    refine ⟨out.good.nodup, List.nodup_singleton p, ?_⟩
    intro a ha hb
    simp at hb
    subst hb
    exact hporder3 ha
  · -- order_iff_perm
    intro a
    show a ∈ acc3.buildOrder ++ [p] ↔ a ∈ p :: acc3.permanentMarks
    simp only [List.mem_append, List.mem_singleton, List.mem_cons]
    rw [out.good.order_iff_perm a]
    tauto
  · -- temp_stack
    intro k hk hnp2
    have hknp : k ∉ acc3.permanentMarks := fun h => hnp2 (List.mem_cons_of_mem _ h)
    have hkne : k ≠ p := fun h => hnp2 (h ▸ List.mem_cons_self _ _)
    have hks := out.good.temp_stack k hk hknp
    rw [hstack3] at hks
    show k ∈ acc3.circularityReportStack.dropLast
    rw [hdrop]
    rcases List.mem_append.mp hks with h | h
    · exact h
    · simp at h
      exact absurd h hkne
  · -- chain
    show List.Chain' (refEdge env) acc3.circularityReportStack.dropLast
    rw [hdrop]
    exact hgood.chain
  · -- order_edges
    intro a ha b hb
    rcases List.mem_append.mp ha with h | h
    · rcases out.good.order_edges a h b hb with hbef | hre
      · exact Or.inl (before_append_right _ _ _ _ hbef)
      · exact Or.inr hre
    · simp at h
      subst h
      rw [hrefsOf] at hb
      obtain ⟨ref, hrefm, hrefeq⟩ := List.mem_map.mp hb
      rcases out.refs_visited ref hrefm with hperm | hstk
      · left
        rw [← hrefeq]
        exact before_extend _ _ _ ((out.good.order_iff_perm _).mpr hperm)
      · right
        rw [← hrefeq]
        exact chain_reaches_last env _ hchain2 _ hstk a (List.getLast?_concat _)
  · -- strong
    intro hnc hdempty
    obtain ⟨d, hd⟩ := hdiag3
    have hdempty2 : acc3.cycleDiagnostics = [] := hdempty
    have hdacc : acc.cycleDiagnostics = [] ∧ d = [] := by
      rw [hd] at hdempty2
      exact List.append_eq_nil.mp hdempty2
    have hdunch : acc3.cycleDiagnostics = (pushAcc env acc p).cycleDiagnostics := by
      rw [hdempty2]
      exact hdacc.1.symm
    have hstrong3 : StrongOrd env acc3.buildOrder := out.good.strong hnc hdempty2
    have hrefperm := out.no_diag_perm hnc hdunch
    intro a ha b hb
    rcases List.mem_append.mp ha with h | h
    · exact before_append_right _ _ _ _ (hstrong3 a h b hb)
    · simp at h
      subst h
      rw [hrefsOf] at hb
      obtain ⟨ref, hrefm, hrefeq⟩ := List.mem_map.mp hb
      rw [← hrefeq]
      exact before_extend _ _ _ ((out.good.order_iff_perm _).mpr (hrefperm ref hrefm))
  · -- temp_mono
    intro k hk
    exact out.temp_mono k (List.mem_cons_of_mem _ hk)
  · -- perm_mono
    intro k hk
    exact List.mem_cons_of_mem _ (out.perm_mono k hk)
  · -- order_append
    obtain ⟨d, hd⟩ := horder3
    exact ⟨d ++ [p], by show acc3.buildOrder ++ [p] = _; rw [hd, List.append_assoc]⟩
  · -- diag_append
    exact hdiag3
  · -- visited
    exact Or.inl (List.mem_cons_self _ _)
  · -- no_diag_perm
    intro _ _
    exact List.mem_cons_self _ _
  · -- frozen
    intro k hk hnp2
    have hkne : k ≠ p := fun h => hpnt (h ▸ hk)
    have hfr := out.frozen k (List.mem_cons_of_mem _ hk) hnp2
    intro hmem
    rcases List.mem_cons.mp hmem with h | h
    · exact hkne h
    · exact hfr h

theorem visit_spec (env : SolutionHost) : ∀ fuel, VisitContract env (visit env fuel) := by
  intro fuel
  induction fuel with
  | zero =>
    intro acc p inC acc2 hrun
    simp [visit] at hrun
  | succ fuel ih =>
    intro acc p inC acc2 hrun hgood hlast hinC
    simp only [visit, resolveProjectName] at hrun
    by_cases hperm : p ∈ acc.permanentMarks
    · rw [if_pos ((contains_iff_mem _ _).mpr hperm)] at hrun
      have hacc : acc = acc2 := Option.some.inj hrun
      subst hacc
      exact {
        good := hgood, stack_eq := rfl,
        temp_mono := fun _ hk => hk, perm_mono := fun _ hk => hk,
        order_append := ⟨[], (List.append_nil _).symm⟩,
        diag_append := ⟨[], (List.append_nil _).symm⟩,
        visited := Or.inl hperm,
        no_diag_perm := fun _ _ => hperm,
        frozen := fun _ _ hk => hk }
    · rw [if_neg (fun hc => hperm ((contains_iff_mem _ _).mp hc))] at hrun
      by_cases htemp : p ∈ acc.temporaryMarks
      · rw [if_pos ((contains_iff_mem _ _).mpr htemp)] at hrun
        have hstk : p ∈ acc.circularityReportStack := hgood.temp_stack p htemp hperm
        cases hic : inC with
        | true =>
          rw [hic, if_pos rfl] at hrun
          have hacc : acc = acc2 := Option.some.inj hrun
          subst hacc
          exact {
            good := hgood, stack_eq := rfl,
            temp_mono := fun _ hk => hk, perm_mono := fun _ hk => hk,
            order_append := ⟨[], (List.append_nil _).symm⟩,
            diag_append := ⟨[], (List.append_nil _).symm⟩,
            visited := Or.inr hstk,
            no_diag_perm := fun hnc _ => absurd (hic ▸ hinC hnc) (by simp),
            frozen := fun _ _ hk => hk }
        | false =>
          rw [hic, if_neg (by simp)] at hrun
          have hacc : { acc with
              cycleDiagnostics := acc.cycleDiagnostics ++ [acc.circularityReportStack] } = acc2 :=
            Option.some.inj hrun
          subst hacc
          refine {
            good := ⟨hgood.cache, hgood.nodup, hgood.order_iff_perm, hgood.temp_stack,
              hgood.chain, hgood.order_edges, ?_⟩,
            stack_eq := rfl,
            temp_mono := fun _ hk => hk, perm_mono := fun _ hk => hk,
            order_append := ⟨[], (List.append_nil _).symm⟩,
            diag_append := ⟨[acc.circularityReportStack], rfl⟩,
            visited := Or.inr hstk,
            no_diag_perm := ?_,
            frozen := fun _ _ hk => hk }
          · intro hnc habs
            exact absurd habs (by simp)
          · intro hnc hd
            exact absurd (append_eq_self_nil hd) (by simp)
      · rw [if_neg (fun hc => htemp ((contains_iff_mem _ _).mp hc))] at hrun
        exact visitFresh_spec env (visit env fuel) ih acc p inC acc2 hrun hgood hlast hinC
          hperm htemp

/-- Postcondition of the roots loop of createBuildOrder. -/
structure VisitRootsOut (env : SolutionHost) (acc accN : BuildOrderAcc)
    (roots : List Key) : Prop where
  good : GoodAcc env accN
  stack_eq : accN.circularityReportStack = acc.circularityReportStack
  diag_append : ∃ d, accN.cycleDiagnostics = acc.cycleDiagnostics ++ d
  perm_mono : ∀ k, k ∈ acc.permanentMarks → k ∈ accN.permanentMarks
  roots_perm : ∀ r ∈ roots, r ∈ accN.permanentMarks ∨ r ∈ acc.circularityReportStack

theorem visitRoots_spec (env : SolutionHost)
    (v : BuildOrderAcc → Key → Bool → Option BuildOrderAcc)
    (hv : VisitContract env v) :
    ∀ (roots : List Key) (acc accN : BuildOrderAcc),
      visitRoots v acc roots = some accN →
      GoodAcc env acc →
      acc.circularityReportStack = [] →
      VisitRootsOut env acc accN roots := by
  intro roots
  induction roots with
  | nil =>
    intro acc accN hrun hgood hstk
    simp only [visitRoots] at hrun
    cases hrun
    exact ⟨hgood, rfl, ⟨[], (List.append_nil _).symm⟩, fun _ hk => hk,
      fun r hr => absurd hr (List.not_mem_nil r)⟩
  | cons r rest ih =>
    intro acc accN hrun hgood hstk
    simp only [visitRoots] at hrun
    cases hcall : v acc r false with
    | none => rw [hcall] at hrun; cases hrun
    | some acc2 =>
      rw [hcall] at hrun
      have out1 : VisitOut env acc acc2 r :=
        hv acc r false acc2 hcall hgood
          (fun la hla => by rw [hstk] at hla; cases hla)
          (fun _ => rfl)
      have hstk2 : acc2.circularityReportStack = [] := out1.stack_eq.trans hstk
      have out2 := ih acc2 accN hrun out1.good hstk2
      refine ⟨out2.good, out2.stack_eq.trans out1.stack_eq, ?_,
        fun k hk => out2.perm_mono k (out1.perm_mono k hk), ?_⟩
      · obtain ⟨d1, hd1⟩ := out1.diag_append
        obtain ⟨d2, hd2⟩ := out2.diag_append
        exact ⟨d1 ++ d2, by rw [hd2, hd1, List.append_assoc]⟩
      · intro x hx
        rcases List.mem_cons.mp hx with h | h
        · subst h
          rcases out1.visited with h2 | h2
          · exact Or.inl (out2.perm_mono x h2)
          · rw [hstk] at h2
            cases h2
        · rcases out2.roots_perm x h with h2 | h2
          · exact Or.inl h2
          · rw [hstk2] at h2
            cases h2

theorem initAcc_good (env : SolutionHost) (st : SolutionBuilderState)
    (h : cacheConsistent env st) : GoodAcc env (initAcc st) := by
  refine ⟨h, List.nodup_nil, ?_, ?_, List.chain'_nil, ?_, ?_⟩
  · intro a
    simp [initAcc]
  · intro k hk
    simp [initAcc] at hk
  · intro a ha
    simp [initAcc] at ha
  · intro _ _ a ha
    simp [initAcc] at ha

/-- Core ordering property of createBuildOrder: every reference edge of an
emitted project either respects the order (the reference comes first) or
closes a cycle (the reference reaches back to the project). -/
theorem createBuildOrder_edges (env : SolutionHost) (st : SolutionBuilderState)
    (roots : List Key) (fuel : Nat) (acc : BuildOrderAcc)
    (hcons : cacheConsistent env st)
    (hrun : createBuildOrder env fuel st roots = some acc) :
    ∀ a ∈ acc.buildOrder, ∀ b ∈ refsOf env a,
      Before acc.buildOrder b a ∨ Reaches env b a := by
  have out := visitRoots_spec env (visit env fuel) (visit_spec env fuel) roots
    (initAcc st) acc hrun (initAcc_good env st hcons) rfl
  exact out.good.order_edges

/-- C2. The build order is leaves-first: whenever project a holds a reference
edge to project b and that edge does not lie on a cycle (b does not reach a
back), b appears strictly before a in the order createBuildOrder emits. -/
theorem c2_build_order_leaves_first (env : SolutionHost) (st : SolutionBuilderState)
    (roots : List Key) (fuel : Nat) (acc : BuildOrderAcc)
    (hcons : cacheConsistent env st)
    (hrun : createBuildOrder env fuel st roots = some acc)
    (a b : Key) (ha : a ∈ acc.buildOrder) (hedge : refEdge env a b)
    (hnc : ¬ Reaches env b a) :
    Before acc.buildOrder b a := by
  rcases createBuildOrder_edges env st roots fuel acc hcons hrun a ha b hedge with h | h
  · exact h
  · exact absurd h hnc

theorem strongOrd_reach_mem (env : SolutionHost) (l : List Key)
    (hstrong : StrongOrd env l) (a c : Key) (ha : a ∈ l) (hr : Reaches env a c) :
    c ∈ l := by
  induction hr with
  | refl => exact ha
  | tail h1 h2 ih =>
    exact (mem_of_before _ _ _ (hstrong _ ih _ h2)).1

theorem strongOrd_no_cycle (env : SolutionHost) (l : List Key)
    (hstrong : StrongOrd env l) (hnd : l.Nodup) (c : Key) (hc : c ∈ l)
    (hcyc : Relation.TransGen (refEdge env) c c) : False := by
  have main : ∀ x y, Relation.TransGen (refEdge env) x y → x ∈ l → Before l y x := by
    intro x y h
    induction h with
    | single h1 =>
      intro hx
      exact hstrong _ hx _ h1
    | tail h1 h2 ih =>
      intro hx
      have hb := ih hx
      have hy := (mem_of_before _ _ _ hb).1
      exact before_trans l hnd _ _ _ hb (hstrong _ hy _ h2)
  exact before_irrefl l hnd c (main c c hcyc hc)

/-- The candidate project keys of the external parser. -/
def keysOf (env : SolutionHost) : List Key :=
  (env.configs.map Prod.fst).dedup

/-- The number of parseable projects not yet temporarily marked; the measure
showing the DFS fuel bound sufficient. -/
def remaining (env : SolutionHost) (acc : BuildOrderAcc) : Nat :=
  ((keysOf env).filter
    (fun k => (envConfig env k).isSome && !(acc.temporaryMarks.contains k))).length

instance {α : Type} : Membership (Key × α) (SMap α) := by
  unfold SMap; infer_instance

theorem smap_get_mem {α : Type} : ∀ (m : SMap α) (k : Key) (v : α),
    m.get k = some v → (k, v) ∈ m
  | [], _, _, h => by simp [SMap.get] at h
  | (a, w) :: tl, k, v, h => by
    by_cases hk : a = k
    · subst hk
      simp [SMap.get] at h
      subst h
      exact List.mem_cons_self _ _
    · simp [SMap.get, hk] at h
      exact List.mem_cons_of_mem _ (smap_get_mem tl k v h)

theorem mem_keysOf (env : SolutionHost) (k : Key) (cfg : ParsedCommandLine)
    (h : envConfig env k = some cfg) : k ∈ keysOf env := by
  rw [envConfig] at h
  rcases Option.bind_eq_some.mp h with ⟨e, he, hid⟩
  have : (k, e) ∈ env.configs := smap_get_mem _ _ _ he
  rw [keysOf]
  rw [List.mem_dedup]
  exact List.mem_map_of_mem Prod.fst this

theorem filter_length_mono {α : Type} (p q : α → Bool) :
    ∀ (l : List α), (∀ a ∈ l, p a = true → q a = true) →
      (l.filter p).length ≤ (l.filter q).length := by
  intro l
  induction l with
  | nil => intro _; simp
  | cons x xs ih =>
    intro h
    have hxs := ih (fun a ha => h a (List.mem_cons_of_mem _ ha))
    cases hp : p x with
    | true =>
      have hq := h x (List.mem_cons_self _ _) hp
      simp [List.filter, hp, hq]
      omega
    | false =>
      cases hq : q x with
      | true => simp [List.filter, hp, hq]; omega
      | false => simp [List.filter, hp, hq]; omega

theorem filter_length_lt {α : Type} (p q : α → Bool) :
    ∀ (l : List α) (a : α), a ∈ l → q a = true → p a = false →
      (∀ x ∈ l, p x = true → q x = true) →
      (l.filter p).length < (l.filter q).length := by
  intro l
  induction l with
  | nil => intro a ha; exact absurd ha (List.not_mem_nil a)
  | cons x xs ih =>
    intro a ha hqa hpa h
    have himpxs : ∀ y ∈ xs, p y = true → q y = true :=
      fun y hy => h y (List.mem_cons_of_mem _ hy)
    rcases List.mem_cons.mp ha with hax | hax
    · subst hax
      have hle := filter_length_mono p q xs himpxs
      simp [List.filter, hpa, hqa]
      omega
    · have hlt := ih a hax hqa hpa himpxs
      cases hp : p x with
      | true =>
        have hq := h x (List.mem_cons_self _ _) hp
        simp [List.filter, hp, hq]
        omega
      | false =>
        cases hq : q x with
        | true => simp [List.filter, hp, hq]; omega
        | false => simp [List.filter, hp, hq]; omega

theorem remaining_le_of_temp_mono (env : SolutionHost) (acc acc2 : BuildOrderAcc)
    (h : ∀ k, k ∈ acc.temporaryMarks → k ∈ acc2.temporaryMarks) :
    remaining env acc2 ≤ remaining env acc := by
  apply filter_length_mono
  intro a _ hp
  simp only [Bool.and_eq_true, Bool.not_eq_true'] at hp ⊢
  refine ⟨hp.1, ?_⟩
  cases hc : acc.temporaryMarks.contains a with
  | false => rfl
  | true =>
    have hmem := (contains_iff_mem _ _).mpr (h a ((contains_iff_mem _ _).mp hc))
    rw [hmem] at hp
    exact absurd hp.2 (by simp)

theorem remaining_push_lt (env : SolutionHost) (acc : BuildOrderAcc) (p : Key)
    (cfg : ParsedCommandLine) (henv : envConfig env p = some cfg)
    (hpnt : p ∉ acc.temporaryMarks) :
    remaining env (pushAcc env acc p) < remaining env acc := by
  apply filter_length_lt _ _ _ p (mem_keysOf env p cfg henv)
  · simp only [Bool.and_eq_true, Bool.not_eq_true', henv]
    refine ⟨rfl, ?_⟩
    cases hc : acc.temporaryMarks.contains p with
    | false => rfl
    | true => exact absurd ((contains_iff_mem _ _).mp hc) hpnt
  · have hin : (pushAcc env acc p).temporaryMarks.contains p = true := by
      apply (contains_iff_mem _ _).mpr
      show p ∈ p :: acc.temporaryMarks
      exact List.mem_cons_self _ _
    simp [hin]
    intro _
    show p ∈ p :: acc.temporaryMarks
    exact List.mem_cons_self _ _
  · intro x _ hp2
    simp only [Bool.and_eq_true, Bool.not_eq_true'] at hp2 ⊢
    refine ⟨hp2.1, ?_⟩
    cases hc : acc.temporaryMarks.contains x with
    | false => rfl
    | true =>
      have hx : x ∈ (pushAcc env acc p).temporaryMarks :=
        List.mem_cons_of_mem _ ((contains_iff_mem _ _).mp hc)
      have hmem := (contains_iff_mem _ _).mpr hx
      rw [hmem] at hp2
      exact absurd hp2.2 (by simp)

theorem visit_total (env : SolutionHost) : ∀ (fuel : Nat) (acc : BuildOrderAcc)
    (p : Key) (inC : Bool),
    cacheConsistent env acc.st → remaining env acc < fuel →
    ∃ acc2, visit env fuel acc p inC = some acc2 ∧
      (∀ k, k ∈ acc.temporaryMarks → k ∈ acc2.temporaryMarks) ∧
      cacheConsistent env acc2.st := by
  intro fuel
  induction fuel with
  | zero => intro acc p inC _ hrem; omega
  | succ fuel ih =>
    intro acc p inC hcons hrem
    by_cases hperm : p ∈ acc.permanentMarks
    · refine ⟨acc, ?_, fun _ h => h, hcons⟩
      simp only [visit, resolveProjectName]
      rw [if_pos ((contains_iff_mem _ _).mpr hperm)]
    · by_cases htemp : p ∈ acc.temporaryMarks
      · cases hic : inC with
        | true =>
          refine ⟨acc, ?_, fun _ h => h, hcons⟩
          simp only [visit, resolveProjectName]
          rw [if_neg (fun hc => hperm ((contains_iff_mem _ _).mp hc)),
            if_pos ((contains_iff_mem _ _).mpr htemp)]
          simp
        | false =>
          refine ⟨{ acc with
            cycleDiagnostics := acc.cycleDiagnostics ++ [acc.circularityReportStack] },
            ?_, fun _ h => h, hcons⟩
          simp only [visit, resolveProjectName]
          rw [if_neg (fun hc => hperm ((contains_iff_mem _ _).mp hc)),
            if_pos ((contains_iff_mem _ _).mpr htemp)]
          simp
      · have heq : visit env (Nat.succ fuel) acc p inC =
            visitFresh env (visit env fuel) acc p inC := by
          simp only [visit, resolveProjectName]
          rw [if_neg (fun hc => hperm ((contains_iff_mem _ _).mp hc)),
            if_neg (fun hc => htemp ((contains_iff_mem _ _).mp hc))]
        rw [heq, visitFresh_eq]
        have hparse := parseConfigFile_of_consistent env acc.st p hcons
        have hconsPush : cacheConsistent env (pushAcc env acc p).st := hparse.2
        cases hrefs : refsFromParse env acc p with
        | nil =>
          refine ⟨finishAcc (pushAcc env acc p) p, ?_, ?_, hconsPush⟩
          · rfl
          · intro k hk
            show k ∈ p :: acc.temporaryMarks
            exact List.mem_cons_of_mem _ hk
        | cons r rs =>
          have henv : ∃ cfg, envConfig env p = some cfg := by
            cases henv2 : envConfig env p with
            | some cfg => exact ⟨cfg, rfl⟩
            | none =>
              rw [refsFromParse, hparse.1, henv2] at hrefs
              simp at hrefs
          obtain ⟨cfg, hcfg⟩ := henv
          have hlt : remaining env (pushAcc env acc p) < fuel := by
            have := remaining_push_lt env acc p cfg hcfg htemp
            omega
          have loop : ∀ (refs : List ProjectReference) (accL : BuildOrderAcc) (inC2 : Bool),
              cacheConsistent env accL.st →
              remaining env accL ≤ remaining env (pushAcc env acc p) →
              ∃ accN, visitRefs (visit env fuel) accL refs inC2 = some accN ∧
                (∀ k, k ∈ accL.temporaryMarks → k ∈ accN.temporaryMarks) ∧
                cacheConsistent env accN.st ∧
                remaining env accN ≤ remaining env (pushAcc env acc p) := by
            intro refs
            induction refs with
            | nil => intro accL inC2 hc hr; exact ⟨accL, rfl, fun _ h => h, hc, hr⟩
            | cons ref rest ihr =>
              intro accL inC2 hc hr
              obtain ⟨acc2, hv2, hm2, hc2⟩ :=
                ih accL (resolveProjectName ref.path) (inC2 || ref.circular) hc (by omega)
              have hr2 : remaining env acc2 ≤ remaining env (pushAcc env acc p) :=
                le_trans (remaining_le_of_temp_mono env accL acc2 hm2) hr
              obtain ⟨accN, hvN, hmN, hcN, hrN⟩ := ihr acc2 inC2 hc2 hr2
              refine ⟨accN, ?_, fun k hk => hmN k (hm2 k hk), hcN, hrN⟩
              simp only [visitRefs]
              rw [hv2]
              exact hvN
          obtain ⟨accN, hvN, hmN, hcN, _⟩ :=
            loop (r :: rs) (pushAcc env acc p) inC hconsPush (le_refl _)
          refine ⟨finishAcc accN p, ?_, ?_, hcN⟩
          · rw [hvN]
            rfl
          · intro k hk
            exact hmN k (List.mem_cons_of_mem _ hk)

theorem visitRoots_total (env : SolutionHost) (fuel : Nat) :
    ∀ (roots : List Key) (acc : BuildOrderAcc),
      cacheConsistent env acc.st → remaining env acc < fuel →
      ∃ accN, visitRoots (visit env fuel) acc roots = some accN := by
  intro roots
  induction roots with
  | nil => intro acc hc _; exact ⟨acc, rfl⟩
  | cons r rest ihr =>
    intro acc hc hr
    obtain ⟨acc2, hv2, hm2, hc2⟩ := visit_total env fuel acc r false hc hr
    have hr2 : remaining env acc2 < fuel :=
      lt_of_le_of_lt (remaining_le_of_temp_mono env acc acc2 hm2) hr
    obtain ⟨accN, hvN⟩ := ihr acc2 hc2 hr2
    refine ⟨accN, ?_⟩
    simp only [visitRoots]
    rw [hv2]
    exact hvN

theorem remaining_le_configs (env : SolutionHost) (acc : BuildOrderAcc) :
    remaining env acc ≤ env.configs.length := by
  calc remaining env acc ≤ (keysOf env).length := List.length_filter_le _ _
    _ ≤ (env.configs.map Prod.fst).length := List.Sublist.length_le (List.dedup_sublist _)
    _ = env.configs.length := List.length_map _ _

/-- A fuel of one more than the number of configuration entries always
suffices: createBuildOrder terminates with a result. -/
theorem createBuildOrder_total (env : SolutionHost) (st : SolutionBuilderState)
    (roots : List Key) (hcons : cacheConsistent env st) :
    (createBuildOrder env (env.configs.length + 1) st roots).isSome := by
  obtain ⟨accN, hv⟩ := visitRoots_total env (env.configs.length + 1) roots (initAcc st)
    hcons (by have := remaining_le_configs env (initAcc st); omega)
  rw [createBuildOrder, hv]
  rfl

theorem noCircular_of_entries (env : SolutionHost)
    (h : ∀ e ∈ env.configs, ∀ cfg, e.2 = some cfg →
      ∀ ref ∈ cfg.projectReferences.getD [], ref.circular = false) :
    NoCircular env := by
  intro k cfg hk ref href
  rw [envConfig] at hk
  rcases Option.bind_eq_some.mp hk with ⟨e, he, hid⟩
  exact h (k, e) (smap_get_mem _ _ _ he) cfg hid ref href

theorem cacheConsistent_of_empty (env : SolutionHost) (st : SolutionBuilderState)
    (h : st.configFileCache = SMap.empty) : cacheConsistent env st := by
  intro k e he
  rw [h] at he
  simp [SMap.get, SMap.empty] at he

/-- A parsed configuration with the given reference paths (all flags off),
used by the concrete test projects below. -/
def mkConfig (refs : List String) : ParsedCommandLine :=
  { fileNames := ["src.ts"],
    projectReferences := some (refs.map (fun r =>
      { path := r, prepend := false, circular := false })),
    errors := [], composite := true, incrementalCompilation := true,
    configFilePath := "x", extendedSourceFiles := [], allOutputs := ["out.js"],
    buildInfoPath := none, canReportNoInputFiles := false }

/-- A fresh solution builder state over the given roots. -/
def emptyState (rootNames : List String) : SolutionBuilderState :=
  { options := {}, rootNames := rootNames, configFileCache := SMap.empty,
    projectStatus := SMap.empty, buildInfoChecked := SMap.empty,
    diagnostics := SMap.empty, projectPendingBuild := SMap.empty,
    projectErrorsReported := SMap.empty, buildOrder := none,
    allProjectBuildPending := true }

/-- A host whose project graph is two disjoint two-project cycles. -/
def twoCyclesHost : SolutionHost :=
  { configs := [("a", some (mkConfig ["b"])), ("b", some (mkConfig ["a"])),
      ("c", some (mkConfig ["d"])), ("d", some (mkConfig ["c"]))],
    now := 100, tsVersion := "3.5.0",
    getBuildInfoVersion := fun _ => none,
    createProgram := fun _ _ => {},
    emitUsingBuildInfo := fun _ _ => Sum.inl "err",
    expandFileNames := fun _ => [] }

/-- A host whose project graph is the single cycle a -> b -> a. -/
def oneCycleHost : SolutionHost :=
  { configs := [("a", some (mkConfig ["b"])), ("b", some (mkConfig ["a"]))],
    now := 100, tsVersion := "3.5.0",
    getBuildInfoVersion := fun _ => none,
    createProgram := fun _ _ => {},
    emitUsingBuildInfo := fun _ _ => Sum.inl "err",
    expandFileNames := fun _ => [] }

/-- A host whose project graph is acyclic: a references b. -/
def acyclicHost : SolutionHost :=
  { configs := [("a", some (mkConfig ["b"])), ("b", some (mkConfig []))],
    now := 100, tsVersion := "3.5.0",
    getBuildInfoVersion := fun _ => none,
    createProgram := fun _ _ => {},
    emitUsingBuildInfo := fun _ _ => Sum.inl "err",
    expandFileNames := fun _ => [] }

/-- C6 counterexample: on a graph with two disjoint reference cycles, none of
whose edges is flagged circular, the DFS emits two cycle diagnostics, not
exactly one. -/
theorem c6_counterexample_two_diagnostics :
    (createBuildOrder twoCyclesHost 5 (emptyState ["a", "c"]) ["a", "c"]).map
      (fun acc => acc.cycleDiagnostics.length) = some 2 := by
  rfl

/-- C6 (amended). Cycle handling: for every project graph the DFS terminates
when given fuel one more than the number of configuration entries, and on any
graph with no circular-flagged reference in which a cycle is reachable from a
root, it emits at least one cycle diagnostic (one per distinct cycle found,
so not always exactly one). -/
theorem c6_cycle_detection_amended :
    (∀ (env : SolutionHost) (st : SolutionBuilderState) (roots : List Key),
      cacheConsistent env st →
      (createBuildOrder env (env.configs.length + 1) st roots).isSome) ∧
    (∀ (env : SolutionHost) (st : SolutionBuilderState) (roots : List Key)
      (fuel : Nat) (acc : BuildOrderAcc) (r c : Key),
      cacheConsistent env st → NoCircular env →
      createBuildOrder env fuel st roots = some acc →
      r ∈ roots → Reaches env r c → Relation.TransGen (refEdge env) c c →
      acc.cycleDiagnostics ≠ []) := by
  constructor
  · exact createBuildOrder_total
  · intro env st roots fuel acc r c hcons hnc hrun hr hreach hcyc hdiag
    have out := visitRoots_spec env (visit env fuel) (visit_spec env fuel) roots
      (initAcc st) acc hrun (initAcc_good env st hcons) rfl
    have hstrong : StrongOrd env acc.buildOrder := out.good.strong hnc hdiag
    have hrperm : r ∈ acc.permanentMarks := by
      rcases out.roots_perm r hr with h | h
      · exact h
      · simp [initAcc] at h
    have hrorder : r ∈ acc.buildOrder := (out.good.order_iff_perm r).mpr hrperm
    have hcorder : c ∈ acc.buildOrder := strongOrd_reach_mem env _ hstrong r c hrorder hreach
    exact strongOrd_no_cycle env _ hstrong out.good.nodup c hcorder hcyc

/-- Witness for C6 at the concrete one-cycle graph: the DFS returns a result
at the sufficient fuel, and the diagnostic list of the returned accumulator
is nonempty. -/
theorem c6_cycle_detection_amended_witness :
    (createBuildOrder oneCycleHost (oneCycleHost.configs.length + 1)
      (emptyState ["a"]) ["a"]).isSome = true ∧
    ((createBuildOrder oneCycleHost 3 (emptyState ["a"]) ["a"]).map
      (fun acc => acc.cycleDiagnostics)).getD [] ≠ [] := by
  constructor
  · exact c6_cycle_detection_amended.1 oneCycleHost (emptyState ["a"]) ["a"]
      (cacheConsistent_of_empty _ _ rfl)
  · cases hrun : createBuildOrder oneCycleHost 3 (emptyState ["a"]) ["a"] with
    | none =>
      have hs : (createBuildOrder oneCycleHost 3 (emptyState ["a"]) ["a"]).isSome := by decide
      rw [hrun] at hs
      exact absurd hs (by simp)
    | some acc =>
      have hne := c6_cycle_detection_amended.2 oneCycleHost (emptyState ["a"]) ["a"] 3 acc
        "a" "a" (cacheConsistent_of_empty _ _ rfl)
        (noCircular_of_entries _ (by decide))
        hrun (by decide) Relation.ReflTransGen.refl
        (Relation.TransGen.head
          (show "b" ∈ refsOf oneCycleHost "a" by decide)
          (Relation.TransGen.single (show "a" ∈ refsOf oneCycleHost "b" by decide)))
      simpa using hne

/-- Witness for C2 at the concrete acyclic two-project graph: b comes before
a in the computed build order. -/
theorem c2_build_order_leaves_first_witness : Before ["b", "a"] "b" "a" := by
  cases hrun : createBuildOrder acyclicHost 3 (emptyState ["a"]) ["a"] with
  | none =>
    have hs : (createBuildOrder acyclicHost 3 (emptyState ["a"]) ["a"]).isSome := by decide
    rw [hrun] at hs
    exact absurd hs (by simp)
  | some acc =>
    have horder : acc.buildOrder = ["b", "a"] := by
      have hmapeq : (createBuildOrder acyclicHost 3 (emptyState ["a"]) ["a"]).map
          BuildOrderAcc.buildOrder = some ["b", "a"] := by decide
      rw [hrun] at hmapeq
      simpa using hmapeq
    have hnr : ¬ Reaches acyclicHost "b" "a" := by
      intro h
      rcases Relation.ReflTransGen.cases_head h with heq | ⟨d, hd, _⟩
      · exact absurd heq (by decide)
      · have hd2 : d ∈ refsOf acyclicHost "b" := hd
        have hrb : refsOf acyclicHost "b" = [] := rfl
        rw [hrb] at hd2
        exact absurd hd2 (List.not_mem_nil d)
    have hb := c2_build_order_leaves_first acyclicHost (emptyState ["a"]) ["a"] 3 acc
      (cacheConsistent_of_empty _ _ rfl) hrun "a" "b"
      (by rw [horder]; decide)
      (show "b" ∈ refsOf acyclicHost "a" by decide)
      hnr
    rw [horder] at hb
    exact hb

/-- The input-file loop of getUpToDateStatusWorker: track the newest input, or
stop at the first missing input file. -/
def computeNewestInput (fs : FileSystem) :
    List String → Option String × Time → Sum String (Option String × Time)
  | [], acc => Sum.inr acc
  | inputFile :: rest, (name, time) =>
    if fileExists fs inputFile then
      let inputTime := (getModifiedTime fs inputFile).getD missingFileModifiedTime
      if inputTime > time then computeNewestInput fs rest (some inputFile, inputTime)
      else computeNewestInput fs rest (name, time)
    else Sum.inl inputFile

/-- Accumulator of the output walk of getUpToDateStatusWorker. -/
structure OutputScan where
  oldestOutputFileName : String := "(none)"
  oldestOutputFileTime : Time := maximumDate
  newestOutputFileName : String := "(none)"
  newestOutputFileTime : Time := minimumDate
  missingOutputFileName : Option String := none
  newestDeclarationFileContentChangedTime : Time := minimumDate
  isOutOfDateWithInputs : Bool := false
deriving DecidableEq

/-- The output walk of getUpToDateStatusWorker: break at the first missing
output or the first output older than the newest input (without returning, so
upstream checks can still override). -/
def scanOutputs (fs : FileSystem) (newestInputFileTime : Time) :
    List String → OutputScan → OutputScan
  | [], acc => acc
  | output :: rest, acc =>
    if fileExists fs output then
      let outputTime := (getModifiedTime fs output).getD missingFileModifiedTime
      let acc1 := if outputTime < acc.oldestOutputFileTime then
        { acc with oldestOutputFileTime := outputTime, oldestOutputFileName := output }
        else acc
      if outputTime < newestInputFileTime then
        { acc1 with isOutOfDateWithInputs := true }
      else
        let acc2 := if outputTime > acc1.newestOutputFileTime then
          { acc1 with newestOutputFileTime := outputTime, newestOutputFileName := output }
          else acc1
        let declTime := newer acc2.newestDeclarationFileContentChangedTime
          ((getModifiedTime fs output).getD missingFileModifiedTime)
        let acc3 := if isDeclarationFile output then
          { acc2 with newestDeclarationFileContentChangedTime := declTime }
          else acc2
        scanOutputs fs newestInputFileTime rest acc3
    else { acc with missingOutputFileName := some output }

/-- Result of the upstream-reference loop: either a decisive early status or
fall-through with the pseudo-up-to-date and prepend flags. -/
inductive RefLoopResult where
  | final (s : UpToDateStatus)
  | through (pseudoUpToDate : Bool) (usesPrepend : Bool)
      (upstreamChangedProject : Option String)
deriving DecidableEq

/-- The upstream-reference loop of getUpToDateStatusWorker, with the recursive
status evaluation supplied as a function. -/
def scanReferences
    (evalRef : SolutionBuilderState → String →
      Option (SolutionBuilderState × UpToDateStatus))
    (missingOutput : Bool) (oldestOutputFileTime : Time) (oldestOutputFileName : String) :
    SolutionBuilderState → List ProjectReference → Bool → Bool → Option String →
    Option (SolutionBuilderState × RefLoopResult)
  | st, [], pseudo, uses, upstream => some (st, .through pseudo uses upstream)
  | st, ref :: rest, pseudo, uses, upstream =>
    let uses2 := uses || ref.prepend
    (evalRef st (resolveProjectName ref.path)).bind (fun pr =>
      let st2 := pr.1
      match pr.2 with
      | .computingUpstream =>
        scanReferences evalRef missingOutput oldestOutputFileTime oldestOutputFileName
          st2 rest pseudo uses2 upstream
      | .unbuildable _ => some (st2, .final (.upstreamBlocked ref.path))
      | .upToDate d =>
        if missingOutput then
          scanReferences evalRef missingOutput oldestOutputFileTime oldestOutputFileName
            st2 rest pseudo uses2 upstream
        else
          match d.newestInputFileTime with
          | some t =>
            if t ≤ oldestOutputFileTime then
              scanReferences evalRef missingOutput oldestOutputFileTime oldestOutputFileName
                st2 rest pseudo uses2 upstream
            else
              match d.newestDeclarationFileContentChangedTime with
              | some t2 =>
                if t2 ≤ oldestOutputFileTime then
                  scanReferences evalRef missingOutput oldestOutputFileTime oldestOutputFileName
                    st2 rest true uses2 (some ref.path)
                else some (st2, .final (.outOfDateWithUpstream oldestOutputFileName ref.path))
              | none => some (st2, .final (.outOfDateWithUpstream oldestOutputFileName ref.path))
          | none =>
            match d.newestDeclarationFileContentChangedTime with
            | some t2 =>
              if t2 ≤ oldestOutputFileTime then
                scanReferences evalRef missingOutput oldestOutputFileTime oldestOutputFileName
                  st2 rest true uses2 (some ref.path)
              else some (st2, .final (.outOfDateWithUpstream oldestOutputFileName ref.path))
            | none => some (st2, .final (.outOfDateWithUpstream oldestOutputFileName ref.path))
      | _ => some (st2, .final (.upstreamOutOfDate ref.path)))

/-- Function checkConfigFileUpToDateStatus of the engine. -/
def checkConfigFileUpToDateStatus (fs : FileSystem) (configFile : String)
    (oldestOutputFileTime : Time) (oldestOutputFileName : String) :
    Option UpToDateStatus :=
  let tsconfigTime := (getModifiedTime fs configFile).getD missingFileModifiedTime
  if oldestOutputFileTime < tsconfigTime then
    some (.outOfDateWithSelf oldestOutputFileName (some configFile))
  else none

/-- The once-per-lifetime build-info version gate of getUpToDateStatusWorker. -/
def buildInfoGate (env : SolutionHost) (fs : FileSystem) (st : SolutionBuilderState)
    (project : ParsedCommandLine) (resolvedPath : Key) :
    SolutionBuilderState × Option UpToDateStatus :=
  if st.buildInfoChecked.hasKey resolvedPath then (st, none)
  else
    let st2 := { st with buildInfoChecked := st.buildInfoChecked.set resolvedPath true }
    match project.buildInfoPath with
    | none => (st2, none)
    | some buildInfoPath =>
      match readFile fs buildInfoPath with
      | none => (st2, none)
      | some value =>
        match env.getBuildInfoVersion value with
        | none => (st2, none)
        | some ver =>
          if ver ≠ env.tsVersion then (st2, some (.tsVersionOutputOfDate ver))
          else (st2, none)

/-- The tail of getUpToDateStatusWorker after the reference loop fell through:
missing output, out of date with inputs, config freshness, build-info gate,
prepend, and finally up to date. -/
def workerTail (env : SolutionHost) (fs : FileSystem) (st : SolutionBuilderState)
    (project : ParsedCommandLine) (resolvedPath : Key) (scan : OutputScan)
    (newestInputFileName : Option String) (newestInputFileTime : Time)
    (pseudoUpToDate usesPrepend : Bool) (upstreamChangedProject : Option String) :
    SolutionBuilderState × UpToDateStatus :=
  match scan.missingOutputFileName with
  | some missingName => (st, .outputMissing missingName)
  | none =>
    if scan.isOutOfDateWithInputs then
      (st, .outOfDateWithSelf scan.oldestOutputFileName newestInputFileName)
    else
      match checkConfigFileUpToDateStatus fs project.configFilePath
        scan.oldestOutputFileTime scan.oldestOutputFileName with
      | some s => (st, s)
      | none =>
        match project.extendedSourceFiles.findSome? (fun configFile =>
          checkConfigFileUpToDateStatus fs configFile
            scan.oldestOutputFileTime scan.oldestOutputFileName) with
        | some s => (st, s)
        | none =>
          match buildInfoGate env fs st project resolvedPath with
          | (st2, some s) => (st2, s)
          | (st2, none) =>
            if usesPrepend && pseudoUpToDate then
              (st2, .outOfDateWithPrepend scan.oldestOutputFileName
                (upstreamChangedProject.getD ""))
            else
              (st2, if pseudoUpToDate then
                .upToDateWithUpstreamTypes
                  { newestInputFileTime := some newestInputFileTime,
                    newestInputFileName := newestInputFileName,
                    newestDeclarationFileContentChangedTime :=
                      some scan.newestDeclarationFileContentChangedTime,
                    newestOutputFileTime := some scan.newestOutputFileTime,
                    newestOutputFileName := some scan.newestOutputFileName,
                    oldestOutputFileName := scan.oldestOutputFileName }
                else
                .upToDate
                  { newestInputFileTime := some newestInputFileTime,
                    newestInputFileName := newestInputFileName,
                    newestDeclarationFileContentChangedTime :=
                      some scan.newestDeclarationFileContentChangedTime,
                    newestOutputFileTime := some scan.newestOutputFileTime,
                    newestOutputFileName := some scan.newestOutputFileName,
                    oldestOutputFileName := scan.oldestOutputFileName })

/-- Function getUpToDateStatusWorker of the engine, with the recursive status
evaluation for upstream references supplied as a function. -/
def getUpToDateStatusWorker (env : SolutionHost) (fs : FileSystem)
    (evalRef : SolutionBuilderState → String →
      Option (SolutionBuilderState × UpToDateStatus))
    (st : SolutionBuilderState) (project : ParsedCommandLine) (resolvedPath : Key) :
    Option (SolutionBuilderState × UpToDateStatus) :=
  match computeNewestInput fs project.fileNames (none, minimumDate) with
  | Sum.inl missingInput => some (st, .unbuildable (missingInput ++ " does not exist"))
  | Sum.inr (newestInputFileName, newestInputFileTime) =>
    if project.fileNames.isEmpty && !project.canReportNoInputFiles then
      some (st, .containerOnly)
    else
      let scan := scanOutputs fs newestInputFileTime project.allOutputs {}
      let afterRefs :=
        match project.projectReferences with
        | some refs =>
          let st1 := { st with
            projectStatus := st.projectStatus.set resolvedPath .computingUpstream }
          scanReferences evalRef scan.missingOutputFileName.isSome
            scan.oldestOutputFileTime scan.oldestOutputFileName st1 refs false false none
        | none => some (st, RefLoopResult.through false false none)
      afterRefs.map (fun pr =>
        match pr.2 with
        | .final s => (pr.1, s)
        | .through pseudoUpToDate usesPrepend upstreamChangedProject =>
          workerTail env fs pr.1 project resolvedPath scan
            newestInputFileName newestInputFileTime pseudoUpToDate usesPrepend
            upstreamChangedProject)

/-- Function getUpToDateStatus of the engine: the undefined-config guard, the
status-map memo, then the worker whose result is recorded in the map. The fuel
bounds the upstream recursion depth of the model. -/
def getUpToDateStatus (env : SolutionHost) (fs : FileSystem) :
    Nat → SolutionBuilderState → Option ParsedCommandLine → Key →
    Option (SolutionBuilderState × UpToDateStatus)
  | _, st, none, _ => some (st, .unbuildable "File deleted mid-build")
  | fuel, st, some project, resolvedPath =>
    match st.projectStatus.get resolvedPath with
    | some prior => some (st, prior)
    | none =>
      match fuel with
      | 0 => none
      | Nat.succ fuel =>
        (getUpToDateStatusWorker env fs
          (fun st2 refPath =>
            let pr := parseConfigFile env st2 refPath
            getUpToDateStatus env fs fuel pr.1 pr.2 refPath)
          st project resolvedPath).map (fun pr =>
            ({ pr.1 with projectStatus := pr.1.projectStatus.set resolvedPath pr.2 },
              pr.2))

/-- Function getUpToDateStatusOfProject of the engine (public interface). -/
def getUpToDateStatusOfProject (env : SolutionHost) (fs : FileSystem) (fuel : Nat)
    (st : SolutionBuilderState) (project : String) :
    Option (SolutionBuilderState × UpToDateStatus) :=
  let configFileName := resolveProjectName project
  let pr := parseConfigFile env st configFileName
  getUpToDateStatus env fs fuel pr.1 pr.2 configFileName

/-- C9. Totality of status lookup: the evaluator on an undefined (unparseable)
config never fails and returns Unbuildable with the fixed reason string, and
getUpToDateStatusOfProject does the same whenever the parse yields no config. -/
theorem c9_unparsed_config_gives_unbuildable :
    (∀ (env : SolutionHost) (fs : FileSystem) (fuel : Nat)
      (st : SolutionBuilderState) (path : Key),
      getUpToDateStatus env fs fuel st none path =
        some (st, .unbuildable "File deleted mid-build")) ∧
    (∀ (env : SolutionHost) (fs : FileSystem) (fuel : Nat)
      (st : SolutionBuilderState) (project : String),
      (parseConfigFile env st (resolveProjectName project)).2 = none →
      getUpToDateStatusOfProject env fs fuel st project =
        some ((parseConfigFile env st (resolveProjectName project)).1,
          .unbuildable "File deleted mid-build")) := by
  constructor
  · intro env fs fuel st path
    cases fuel <;> rfl
  · intro env fs fuel st project hparse
    rw [getUpToDateStatusOfProject]
    rw [hparse]
    cases fuel <;> rfl

/-- Witness for C9: a host with no configurations at all yields the fixed
Unbuildable status through the public interface. -/
theorem c9_unparsed_config_gives_unbuildable_witness :
    getUpToDateStatusOfProject
        { configs := [], now := 0, tsVersion := "3.5.0",
          getBuildInfoVersion := fun _ => none, createProgram := fun _ _ => {},
          emitUsingBuildInfo := fun _ _ => Sum.inl "e", expandFileNames := fun _ => [] }
        SMap.empty 5 (emptyState ["nope"]) "nope" =
      some ((parseConfigFile
          { configs := [], now := 0, tsVersion := "3.5.0",
            getBuildInfoVersion := fun _ => none, createProgram := fun _ _ => {},
            emitUsingBuildInfo := fun _ _ => Sum.inl "e", expandFileNames := fun _ => [] }
          (emptyState ["nope"]) "nope").1,
        .unbuildable "File deleted mid-build") := by
  exact c9_unparsed_config_gives_unbuildable.2 _ SMap.empty 5 (emptyState ["nope"]) "nope"
    (by rfl)

/-- The status map has the cycle sentinel recorded at key k. -/
def computingAt (st : SolutionBuilderState) (k : Key) : Prop :=
  st.projectStatus.get k = some .computingUpstream

theorem parseConfigFile_projectStatus (env : SolutionHost) (st : SolutionBuilderState)
    (k : Key) : (parseConfigFile env st k).1.projectStatus = st.projectStatus := by
  rw [parseConfigFile]
  cases st.configFileCache.get k <;> rfl

theorem buildInfoGate_projectStatus (env : SolutionHost) (fs : FileSystem)
    (st : SolutionBuilderState) (project : ParsedCommandLine) (path : Key) :
    (buildInfoGate env fs st project path).1.projectStatus = st.projectStatus := by
  rw [buildInfoGate]
  repeat' split
  all_goals rfl

theorem checkConfigFileUpToDateStatus_ne_computing (fs : FileSystem) (c : String)
    (t : Time) (n : String) (s : UpToDateStatus)
    (h : checkConfigFileUpToDateStatus fs c t n = some s) : s ≠ .computingUpstream := by
  rw [checkConfigFileUpToDateStatus] at h
  by_cases hc : t < (getModifiedTime fs c).getD missingFileModifiedTime
  · rw [if_pos hc] at h
    cases h
    simp
  · rw [if_neg hc] at h
    cases h

theorem buildInfoGate_ne_computing (env : SolutionHost) (fs : FileSystem)
    (st : SolutionBuilderState) (project : ParsedCommandLine) (path : Key)
    (s : UpToDateStatus) (h : (buildInfoGate env fs st project path).2 = some s) :
    s ≠ .computingUpstream := by
  rw [buildInfoGate] at h
  repeat' split at h
  all_goals (try cases h)
  all_goals simp

theorem exists_of_findSome {α β : Type} (f : α → Option β) :
    ∀ (l : List α) (b : β), l.findSome? f = some b → ∃ a, a ∈ l ∧ f a = some b
  | [], b, h => by simp [List.findSome?] at h
  | x :: xs, b, h => by
    cases hf : f x with
    | some v =>
      rw [List.findSome?_cons, hf] at h
      cases h
      exact ⟨x, List.mem_cons_self _ _, hf⟩
    | none =>
      rw [List.findSome?_cons, hf] at h
      obtain ⟨a, ha, hfa⟩ := exists_of_findSome f xs b h
      exact ⟨a, List.mem_cons_of_mem _ ha, hfa⟩

theorem workerTail_spec (env : SolutionHost) (fs : FileSystem)
    (st : SolutionBuilderState) (project : ParsedCommandLine) (path : Key)
    (scan : OutputScan) (nn : Option String) (nt : Time)
    (p u : Bool) (c : Option String) :
    (workerTail env fs st project path scan nn nt p u c).1.projectStatus =
      st.projectStatus ∧
    (workerTail env fs st project path scan nn nt p u c).2 ≠ .computingUpstream := by
  rw [workerTail]
  split
  · exact ⟨rfl, by simp⟩
  · split
    · exact ⟨rfl, by simp⟩
    · split
      · rename_i s heq
        exact ⟨rfl, checkConfigFileUpToDateStatus_ne_computing _ _ _ _ _ heq⟩
      · split
        · rename_i s heq
          obtain ⟨cf, _, hcf⟩ := exists_of_findSome _ _ _ heq
          exact ⟨rfl, checkConfigFileUpToDateStatus_ne_computing _ _ _ _ _ hcf⟩
        · split
          · rename_i st2 s heq
            have h1 := buildInfoGate_projectStatus env fs st project path
            rw [heq] at h1
            refine ⟨h1, ?_⟩
            apply buildInfoGate_ne_computing env fs st project path
            rw [heq]
          · rename_i st2 heq
            have h1 := buildInfoGate_projectStatus env fs st project path
            rw [heq] at h1
            split
            · exact ⟨h1, by simp⟩
            · split
              · exact ⟨h1, by simp⟩
              · exact ⟨h1, by simp⟩

theorem scanReferences_computing
    (evalRef : SolutionBuilderState → String →
      Option (SolutionBuilderState × UpToDateStatus))
    (hcontract : ∀ st p st2 r, evalRef st p = some (st2, r) →
      ∀ k, computingAt st2 k → computingAt st k)
    (missing : Bool) (oldest : Time) (oldestName : String) :
    ∀ (refs : List ProjectReference) (st : SolutionBuilderState)
      (pseudo uses : Bool) (upstream : Option String)
      (st2 : SolutionBuilderState) (res : RefLoopResult),
      scanReferences evalRef missing oldest oldestName st refs pseudo uses upstream =
        some (st2, res) →
      (∀ k, computingAt st2 k → computingAt st k) ∧
      (∀ s, res = .final s → s ≠ .computingUpstream) := by
  intro refs
  induction refs with
  | nil =>
    intro st pseudo uses upstream st2 res hrun
    simp only [scanReferences] at hrun
    cases hrun
    exact ⟨fun _ hk => hk, fun s hs => by cases hs⟩
  | cons ref rest ih =>
    intro st pseudo uses upstream st2 res hrun
    simp only [scanReferences] at hrun
    cases hev : evalRef st (resolveProjectName ref.path) with
    | none => rw [hev] at hrun; simp at hrun
    | some pr =>
      obtain ⟨stE, refStatus⟩ := pr
      rw [hev] at hrun
      simp only [Option.some_bind] at hrun
      have hEset : ∀ k, computingAt stE k → computingAt st k :=
        hcontract st _ stE refStatus hev
      have step : ∀ p2 u2 up2,
          scanReferences evalRef missing oldest oldestName stE rest p2 u2 up2 =
            some (st2, res) →
          (∀ k, computingAt st2 k → computingAt st k) ∧
          (∀ s, res = .final s → s ≠ .computingUpstream) := by
        intro p2 u2 up2 hrec
        obtain ⟨hm, hf⟩ := ih stE p2 u2 up2 st2 res hrec
        exact ⟨fun k hk => hEset k (hm k hk), hf⟩
      repeat' split at hrun
      all_goals first
        | exact step _ _ _ hrun
        | (cases hrun; exact ⟨hEset, fun s hs => by cases hs; simp⟩)

theorem getUpToDateStatusWorker_computing (env : SolutionHost) (fs : FileSystem)
    (evalRef : SolutionBuilderState → String →
      Option (SolutionBuilderState × UpToDateStatus))
    (hcontract : ∀ st p st2 r, evalRef st p = some (st2, r) →
      ∀ k, computingAt st2 k → computingAt st k)
    (st : SolutionBuilderState) (project : ParsedCommandLine) (path : Key)
    (st2 : SolutionBuilderState) (s : UpToDateStatus)
    (hrun : getUpToDateStatusWorker env fs evalRef st project path = some (st2, s)) :
    s ≠ .computingUpstream ∧
    (∀ k, computingAt st2 k → computingAt st k ∨ k = path) := by
  rw [getUpToDateStatusWorker] at hrun
  cases hin : computeNewestInput fs project.fileNames (none, minimumDate) with
  | inl missingInput =>
    rw [hin] at hrun
    simp only [] at hrun
    cases hrun
    exact ⟨by simp, fun k hk => Or.inl hk⟩
  | inr nr =>
    obtain ⟨nn, nt⟩ := nr
    rw [hin] at hrun
    simp only [] at hrun
    by_cases hcont : (project.fileNames.isEmpty && !project.canReportNoInputFiles) = true
    · rw [if_pos hcont] at hrun
      cases hrun
      exact ⟨by simp, fun k hk => Or.inl hk⟩
    · rw [if_neg hcont] at hrun
      cases hrefs : project.projectReferences with
      | none =>
        rw [hrefs] at hrun
        simp only [Option.map_some'] at hrun
        injection hrun with hpair
        have ht := workerTail_spec env fs st project path
          (scanOutputs fs nt project.allOutputs {}) nn nt false false none
        rw [hpair] at ht
        refine ⟨ht.2, fun k hk => Or.inl ?_⟩
        have hk2 : st2.projectStatus.get k = some .computingUpstream := hk
        rw [ht.1] at hk2
        exact hk2
      | some refs =>
        rw [hrefs] at hrun
        rw [Option.map_eq_some'] at hrun
        obtain ⟨pr2, hloop, hpair⟩ := hrun
        obtain ⟨st3, res⟩ := pr2
        have hscan := scanReferences_computing evalRef hcontract _ _ _ refs _
          false false none st3 res hloop
        have hmark : ∀ k, computingAt st3 k → computingAt st k ∨ k = path := by
          intro k hk
          have h1 := hscan.1 k hk
          have h2 : (st.projectStatus.set path .computingUpstream).get k =
              some .computingUpstream := h1
          rw [SMap.get_set] at h2
          by_cases hkp : path = k
          · exact Or.inr hkp.symm
          · rw [if_neg hkp] at h2
            exact Or.inl h2
        cases res with
        | final sf =>
          simp only [] at hpair
          cases hpair
          exact ⟨hscan.2 _ rfl, hmark⟩
        | through p u c =>
          simp only [] at hpair
          have ht := workerTail_spec env fs st3 project path
            (scanOutputs fs nt project.allOutputs {}) nn nt p u c
          rw [hpair] at ht
          refine ⟨ht.2, fun k hk => ?_⟩
          have hk2 : st2.projectStatus.get k = some .computingUpstream := hk
          rw [ht.1] at hk2
          exact hmark k hk2


theorem getUpToDateStatus_computing (env : SolutionHost) (fs : FileSystem) :
    ∀ (fuel : Nat) (st : SolutionBuilderState) (cfg : Option ParsedCommandLine)
      (path : Key) (st2 : SolutionBuilderState) (r : UpToDateStatus),
      getUpToDateStatus env fs fuel st cfg path = some (st2, r) →
      (∀ k, computingAt st2 k → computingAt st k) ∧
      (r = .computingUpstream → computingAt st path) := by
  intro fuel
  induction fuel with
  | zero =>
    intro st cfg path st2 r hrun
    cases cfg with
    | none =>
      simp only [getUpToDateStatus] at hrun
      cases hrun
      exact ⟨fun _ hk => hk, fun h => absurd h (by simp)⟩
    | some project =>
      simp only [getUpToDateStatus] at hrun
      cases hprior : st.projectStatus.get path with
      | some prior =>
        rw [hprior] at hrun
        simp only [] at hrun
        cases hrun
        refine ⟨fun _ hk => hk, fun h => ?_⟩
        rw [h] at hprior
        exact hprior
      | none =>
        rw [hprior] at hrun
        simp only [] at hrun
        cases hrun
  | succ fuel ih =>
    intro st cfg path st2 r hrun
    cases cfg with
    | none =>
      simp only [getUpToDateStatus] at hrun
      cases hrun
      exact ⟨fun _ hk => hk, fun h => absurd h (by simp)⟩
    | some project =>
      simp only [getUpToDateStatus] at hrun
      cases hprior : st.projectStatus.get path with
      | some prior =>
        rw [hprior] at hrun
        simp only [] at hrun
        cases hrun
        refine ⟨fun _ hk => hk, fun h => ?_⟩
        rw [h] at hprior
        exact hprior
      | none =>
        rw [hprior] at hrun
        simp only [] at hrun
        rw [Option.map_eq_some'] at hrun
        obtain ⟨pr3, hw, hpair⟩ := hrun
        obtain ⟨st3, actual⟩ := pr3
        simp only [] at hpair
        injection hpair with h1 h2
        subst h1
        subst h2
        have hcontract : ∀ (stA : SolutionBuilderState) (p : String)
            (stB : SolutionBuilderState) (rB : UpToDateStatus),
            getUpToDateStatus env fs fuel (parseConfigFile env stA p).1
              (parseConfigFile env stA p).2 p = some (stB, rB) →
            ∀ k, computingAt stB k → computingAt stA k := by
          intro stA p stB rB hev k hk
          have h2 := (ih (parseConfigFile env stA p).1 (parseConfigFile env stA p).2
            p stB rB hev).1 k hk
          have h4 : (parseConfigFile env stA p).1.projectStatus.get k =
              some .computingUpstream := h2
          rw [parseConfigFile_projectStatus] at h4
          exact h4
        have hworker := getUpToDateStatusWorker_computing env fs _ hcontract
          st project path st3 actual hw
        constructor
        · intro k hk
          have hk2 : (st3.projectStatus.set path actual).get k =
              some .computingUpstream := hk
          rw [SMap.get_set] at hk2
          by_cases hkp : path = k
          · rw [if_pos hkp] at hk2
            exact absurd (Option.some.inj hk2) hworker.1
          · rw [if_neg hkp] at hk2
            rcases hworker.2 k hk2 with h | h
            · exact h
            · exact absurd h.symm hkp
        · intro h
          exact absurd h hworker.1

/-- C7. The sentinel ComputingUpstream never escapes the evaluator: starting
from a status map with no sentinel entries, a completed evaluation never
returns ComputingUpstream and leaves no sentinel entry in the map (every
sentinel written before recursion is overwritten with a real status). -/
theorem c7_computing_upstream_never_escapes
    (env : SolutionHost) (fs : FileSystem) (fuel : Nat) (st : SolutionBuilderState)
    (cfg : Option ParsedCommandLine) (path : Key) (st2 : SolutionBuilderState)
    (r : UpToDateStatus)
    (hclean : ∀ k, ¬ computingAt st k)
    (hrun : getUpToDateStatus env fs fuel st cfg path = some (st2, r)) :
    r ≠ .computingUpstream ∧ (∀ k, ¬ computingAt st2 k) := by
  have hmain := getUpToDateStatus_computing env fs fuel st cfg path st2 r hrun
  exact ⟨fun hr => hclean path (hmain.2 hr), fun k hk => hclean k (hmain.1 k hk)⟩

/-- Witness for C7 at a concrete evaluation with an upstream recursion (the
project references another project, so the sentinel is actually written and
overwritten): the returned status is not the sentinel. -/
theorem c7_computing_upstream_never_escapes_witness :
    ((getUpToDateStatus oneCycleHost SMap.empty 3 (emptyState ["a"])
        (some (mkConfig ["b"])) "a").map Prod.snd) ≠ some .computingUpstream := by
  cases hrun : getUpToDateStatus oneCycleHost SMap.empty 3 (emptyState ["a"])
      (some (mkConfig ["b"])) "a" with
  | none =>
    have hs : (getUpToDateStatus oneCycleHost SMap.empty 3 (emptyState ["a"])
        (some (mkConfig ["b"])) "a").isSome := by decide
    rw [hrun] at hs
    exact absurd hs (by simp)
  | some pr =>
    obtain ⟨st2, r⟩ := pr
    have h := c7_computing_upstream_never_escapes oneCycleHost SMap.empty 3
      (emptyState ["a"]) (some (mkConfig ["b"])) "a" st2 r
      (fun k hk => by
        have hk2 : (SMap.empty : SMap UpToDateStatus).get k =
            some .computingUpstream := hk
        rw [SMap.get_empty] at hk2
        cases hk2)
      hrun
    simp only [Option.map_some']
    intro hcon
    exact h.1 (Option.some.inj hcon)

/-- The recursive reference evaluation closed over a fuel level: parse the
referenced config, then evaluate its status. -/
def evalRefFn (env : SolutionHost) (fs : FileSystem) (fuel : Nat) :
    SolutionBuilderState → String → Option (SolutionBuilderState × UpToDateStatus) :=
  fun st2 refPath =>
    let pr := parseConfigFile env st2 refPath
    getUpToDateStatus env fs fuel pr.1 pr.2 refPath

theorem evalRefFn_cached (env : SolutionHost) (fs : FileSystem) (fuel : Nat)
    (st : SolutionBuilderState) (rp : String) (sv : UpToDateStatus)
    (henv : envConfig env rp ≠ none)
    (hcached : st.projectStatus.get rp = some sv)
    (hcons : cacheConsistent env st) :
    evalRefFn env fs fuel st rp = some ((parseConfigFile env st rp).1, sv) ∧
    (parseConfigFile env st rp).1.projectStatus = st.projectStatus ∧
    cacheConsistent env (parseConfigFile env st rp).1 := by
  have hp := parseConfigFile_of_consistent env st rp hcons
  cases hcfg : envConfig env rp with
  | none => exact absurd hcfg henv
  | some cfg =>
    refine ⟨?_, parseConfigFile_projectStatus env st rp, hp.2⟩
    have h2 : (parseConfigFile env st rp).2 = some cfg := by rw [hp.1, hcfg]
    simp only [evalRefFn]
    rw [h2]
    cases fuel with
    | zero =>
      simp only [getUpToDateStatus]
      rw [parseConfigFile_projectStatus, hcached]
    | succ f =>
      simp only [getUpToDateStatus]
      rw [parseConfigFile_projectStatus, hcached]

theorem scanReferences_blocked (env : SolutionHost) (fs : FileSystem) (fuel : Nat)
    (oldest : Time) (oldestName : String) :
    ∀ (pre : List ProjectReference) (st : SolutionBuilderState)
      (rU : ProjectReference) (post : List ProjectReference)
      (pseudo uses : Bool) (upstream : Option String) (reason : String),
      cacheConsistent env st →
      (∀ r ∈ pre, envConfig env (resolveProjectName r.path) ≠ none ∧
        (st.projectStatus.get (resolveProjectName r.path) = some .computingUpstream ∨
          ∃ d, st.projectStatus.get (resolveProjectName r.path) = some (.upToDate d))) →
      envConfig env (resolveProjectName rU.path) ≠ none →
      st.projectStatus.get (resolveProjectName rU.path) = some (.unbuildable reason) →
      ∃ st2, scanReferences (evalRefFn env fs fuel) true oldest oldestName st
        (pre ++ rU :: post) pseudo uses upstream =
        some (st2, .final (.upstreamBlocked rU.path)) := by
  intro pre
  induction pre with
  | nil =>
    intro st rU post pseudo uses upstream reason hcons hpre henvU hcachedU
    have he := evalRefFn_cached env fs fuel st _ _ henvU hcachedU hcons
    refine ⟨(parseConfigFile env st (resolveProjectName rU.path)).1, ?_⟩
    simp only [List.nil_append, scanReferences]
    rw [he.1]
    rfl
  | cons r pre ih =>
    intro st rU post pseudo uses upstream reason hcons hpre henvU hcachedU
    have hr := hpre r (List.mem_cons_self _ _)
    have hprerest : ∀ x ∈ pre, envConfig env (resolveProjectName x.path) ≠ none ∧
        ((parseConfigFile env st (resolveProjectName r.path)).1.projectStatus.get
            (resolveProjectName x.path) = some .computingUpstream ∨
          ∃ d, (parseConfigFile env st (resolveProjectName r.path)).1.projectStatus.get
            (resolveProjectName x.path) = some (.upToDate d)) := by
      intro x hx
      rw [parseConfigFile_projectStatus]
      exact hpre x (List.mem_cons_of_mem _ hx)
    have hcachedU2 : (parseConfigFile env st (resolveProjectName r.path)).1.projectStatus.get
        (resolveProjectName rU.path) = some (.unbuildable reason) := by
      rw [parseConfigFile_projectStatus]
      exact hcachedU
    rcases hr.2 with hcomp | ⟨d, hupd⟩
    · have he := evalRefFn_cached env fs fuel st _ _ hr.1 hcomp hcons
      obtain ⟨st2, hrec⟩ := ih (parseConfigFile env st (resolveProjectName r.path)).1
        rU post pseudo (uses || r.prepend) upstream reason he.2.2 hprerest henvU hcachedU2
      refine ⟨st2, ?_⟩
      simp only [List.cons_append, scanReferences]
      rw [he.1]
      exact hrec
    · have he := evalRefFn_cached env fs fuel st _ _ hr.1 hupd hcons
      obtain ⟨st2, hrec⟩ := ih (parseConfigFile env st (resolveProjectName r.path)).1
        rU post pseudo (uses || r.prepend) upstream reason he.2.2 hprerest henvU hcachedU2
      refine ⟨st2, ?_⟩
      simp only [List.cons_append, scanReferences]
      rw [he.1]
      exact hrec

theorem scanReferences_no_output_missing (env : SolutionHost) (fs : FileSystem)
    (fuel : Nat) (oldest : Time) (oldestName : String) :
    ∀ (refs : List ProjectReference) (st : SolutionBuilderState)
      (pseudo uses : Bool) (upstream : Option String),
      cacheConsistent env st →
      (∀ r ∈ refs, envConfig env (resolveProjectName r.path) ≠ none ∧
        ∃ sv, st.projectStatus.get (resolveProjectName r.path) = some sv) →
      (∃ r ∈ refs, ∃ reason, st.projectStatus.get (resolveProjectName r.path) =
        some (.unbuildable reason)) →
      ∃ st2 up, scanReferences (evalRefFn env fs fuel) true oldest oldestName st
          refs pseudo uses upstream = some (st2, .final (.upstreamBlocked up)) ∨
        scanReferences (evalRefFn env fs fuel) true oldest oldestName st
          refs pseudo uses upstream = some (st2, .final (.upstreamOutOfDate up)) := by
  intro refs
  induction refs with
  | nil =>
    intro st pseudo uses upstream _ _ hex
    obtain ⟨r, hr, _⟩ := hex
    exact absurd hr (List.not_mem_nil r)
  | cons r rest ih =>
    intro st pseudo uses upstream hcons hall hex
    have hr := hall r (List.mem_cons_self _ _)
    obtain ⟨sv, hsv⟩ := hr.2
    have he := evalRefFn_cached env fs fuel st _ _ hr.1 hsv hcons
    have hallrest : ∀ x ∈ rest, envConfig env (resolveProjectName x.path) ≠ none ∧
        ∃ sv2, (parseConfigFile env st (resolveProjectName r.path)).1.projectStatus.get
          (resolveProjectName x.path) = some sv2 := by
      intro x hx
      rw [parseConfigFile_projectStatus]
      exact hall x (List.mem_cons_of_mem _ hx)
    have hexrest : (∃ x ∈ rest, ∃ reason,
        st.projectStatus.get (resolveProjectName x.path) = some (.unbuildable reason)) →
        ∃ x ∈ rest, ∃ reason,
        (parseConfigFile env st (resolveProjectName r.path)).1.projectStatus.get
          (resolveProjectName x.path) = some (.unbuildable reason) := by
      intro ⟨x, hx, reason, hux⟩
      refine ⟨x, hx, reason, ?_⟩
      rw [parseConfigFile_projectStatus]
      exact hux
    cases sv with
    | unbuildable reason =>
      refine ⟨(parseConfigFile env st (resolveProjectName r.path)).1, r.path, Or.inl ?_⟩
      simp only [scanReferences]
      rw [he.1]
      rfl
    | computingUpstream =>
      have hexr : ∃ x ∈ rest, ∃ reason,
          st.projectStatus.get (resolveProjectName x.path) = some (.unbuildable reason) := by
        obtain ⟨x, hx, reason, hux⟩ := hex
        rcases List.mem_cons.mp hx with hxr | hxr
        · subst hxr
          rw [hsv] at hux
          cases hux
        · exact ⟨x, hxr, reason, hux⟩
      obtain ⟨st2, up, hrec⟩ := ih (parseConfigFile env st (resolveProjectName r.path)).1
        pseudo (uses || r.prepend) upstream he.2.2 hallrest (hexrest hexr)
      refine ⟨st2, up, ?_⟩
      rcases hrec with hl | hl
      · left
        simp only [scanReferences]
        rw [he.1]
        exact hl
      · right
        simp only [scanReferences]
        rw [he.1]
        exact hl
    | upToDate d =>
      have hexr : ∃ x ∈ rest, ∃ reason,
          st.projectStatus.get (resolveProjectName x.path) = some (.unbuildable reason) := by
        obtain ⟨x, hx, reason, hux⟩ := hex
        rcases List.mem_cons.mp hx with hxr | hxr
        · subst hxr
          rw [hsv] at hux
          cases hux
        · exact ⟨x, hxr, reason, hux⟩
      obtain ⟨st2, up, hrec⟩ := ih (parseConfigFile env st (resolveProjectName r.path)).1
        pseudo (uses || r.prepend) upstream he.2.2 hallrest (hexrest hexr)
      refine ⟨st2, up, ?_⟩
      rcases hrec with hl | hl
      · left
        simp only [scanReferences]
        rw [he.1]
        exact hl
      · right
        simp only [scanReferences]
        rw [he.1]
        exact hl
    | upToDateWithUpstreamTypes d =>
      refine ⟨(parseConfigFile env st (resolveProjectName r.path)).1, r.path, Or.inr ?_⟩
      simp only [scanReferences]
      rw [he.1]
      rfl
    | outOfDateWithPrepend a b =>
      refine ⟨(parseConfigFile env st (resolveProjectName r.path)).1, r.path, Or.inr ?_⟩
      simp only [scanReferences]
      rw [he.1]
      rfl
    | outputMissing a =>
      refine ⟨(parseConfigFile env st (resolveProjectName r.path)).1, r.path, Or.inr ?_⟩
      simp only [scanReferences]
      rw [he.1]
      rfl
    | outOfDateWithSelf a b =>
      refine ⟨(parseConfigFile env st (resolveProjectName r.path)).1, r.path, Or.inr ?_⟩
      simp only [scanReferences]
      rw [he.1]
      rfl
    | outOfDateWithUpstream a b =>
      refine ⟨(parseConfigFile env st (resolveProjectName r.path)).1, r.path, Or.inr ?_⟩
      simp only [scanReferences]
      rw [he.1]
      rfl
    | upstreamOutOfDate a =>
      refine ⟨(parseConfigFile env st (resolveProjectName r.path)).1, r.path, Or.inr ?_⟩
      simp only [scanReferences]
      rw [he.1]
      rfl
    | upstreamBlocked a =>
      refine ⟨(parseConfigFile env st (resolveProjectName r.path)).1, r.path, Or.inr ?_⟩
      simp only [scanReferences]
      rw [he.1]
      rfl
    | tsVersionOutputOfDate a =>
      refine ⟨(parseConfigFile env st (resolveProjectName r.path)).1, r.path, Or.inr ?_⟩
      simp only [scanReferences]
      rw [he.1]
      rfl
    | containerOnly =>
      refine ⟨(parseConfigFile env st (resolveProjectName r.path)).1, r.path, Or.inr ?_⟩
      simp only [scanReferences]
      rw [he.1]
      rfl

/-- The state in which the reference loop of getUpToDateStatusWorker starts:
the project itself is marked ComputingUpstream in the status map. -/
def refLoopStart (st : SolutionBuilderState) (path : Key) : SolutionBuilderState :=
  { st with projectStatus := st.projectStatus.set path .computingUpstream }

theorem refLoopStart_get_ne (st : SolutionBuilderState) (path k : Key) (h : k ≠ path) :
    (refLoopStart st path).projectStatus.get k = st.projectStatus.get k :=
  SMap.get_set_ne st.projectStatus UpToDateStatus.computingUpstream (Ne.symm h)

/-- One-step unfolding of getUpToDateStatus at nonzero fuel on an uncached
project: the worker runs with recursive evaluation at the next lower fuel and
its verdict is recorded in the status map. -/
theorem getUpToDateStatus_succ_uncached (env : SolutionHost) (fs : FileSystem)
    (fuel : Nat) (st : SolutionBuilderState) (project : ParsedCommandLine)
    (path : Key) (h : st.projectStatus.get path = none) :
    getUpToDateStatus env fs (Nat.succ fuel) st (some project) path =
      (getUpToDateStatusWorker env fs (evalRefFn env fs fuel) st project path).map
        (fun pr =>
          ({ pr.1 with projectStatus := pr.1.projectStatus.set path pr.2 }, pr.2)) := by
  simp only [getUpToDateStatus]
  rw [h]
  rfl

/-- Unfolding of getUpToDateStatusWorker when every input is present, the
project is not a bare container, and it declares references. -/
theorem getUpToDateStatusWorker_refs (env : SolutionHost) (fs : FileSystem)
    (evalRef : SolutionBuilderState → String →
      Option (SolutionBuilderState × UpToDateStatus))
    (st : SolutionBuilderState) (project : ParsedCommandLine) (path : Key)
    (nn : Option String) (nt : Time) (refs : List ProjectReference)
    (hinput : computeNewestInput fs project.fileNames (none, minimumDate) =
      Sum.inr (nn, nt))
    (hcontainer : (project.fileNames.isEmpty && !project.canReportNoInputFiles) = false)
    (hrefs : project.projectReferences = some refs) :
    getUpToDateStatusWorker env fs evalRef st project path =
      (scanReferences evalRef
        (scanOutputs fs nt project.allOutputs {}).missingOutputFileName.isSome
        (scanOutputs fs nt project.allOutputs {}).oldestOutputFileTime
        (scanOutputs fs nt project.allOutputs {}).oldestOutputFileName
        (refLoopStart st path) refs false false none).map (fun pr =>
          match pr.2 with
          | .final s => (pr.1, s)
          | .through pseudoUpToDate usesPrepend upstreamChangedProject =>
            workerTail env fs pr.1 project path
              (scanOutputs fs nt project.allOutputs {}) nn nt
              pseudoUpToDate usesPrepend upstreamChangedProject) := by
  simp only [getUpToDateStatusWorker]
  rw [hinput]
  simp only [hcontainer, Bool.false_eq_true, if_false]
  rw [hrefs]
  rfl

/-- C3. Status priority in the evaluator, corrected: when an expected output
is missing, a reference whose cached verdict is Unbuildable yields
UpstreamBlocked provided every earlier reference was being computed or plainly
up to date (part one); and whenever some reference is cached Unbuildable the
verdict is never OutputMissing, but it may be UpstreamOutOfDate instead of
UpstreamBlocked when an earlier reference is out of date (part two). -/
theorem c3_status_priority_amended (env : SolutionHost) (fs : FileSystem)
    (fuel : Nat) (st : SolutionBuilderState) (project : ParsedCommandLine)
    (path : Key) (nn : Option String) (nt : Time)
    (hcons : cacheConsistent env st)
    (huncached : st.projectStatus.get path = none)
    (hinput : computeNewestInput fs project.fileNames (none, minimumDate) =
      Sum.inr (nn, nt))
    (hcontainer : (project.fileNames.isEmpty && !project.canReportNoInputFiles) = false)
    (hmiss : (scanOutputs fs nt project.allOutputs {}).missingOutputFileName.isSome
      = true) :
    (∀ (pre : List ProjectReference) (rU : ProjectReference)
      (post : List ProjectReference) (reason : String),
      project.projectReferences = some (pre ++ rU :: post) →
      (∀ r ∈ pre, resolveProjectName r.path ≠ path ∧
        envConfig env (resolveProjectName r.path) ≠ none ∧
        (st.projectStatus.get (resolveProjectName r.path) = some .computingUpstream ∨
          ∃ d, st.projectStatus.get (resolveProjectName r.path) = some (.upToDate d))) →
      resolveProjectName rU.path ≠ path →
      envConfig env (resolveProjectName rU.path) ≠ none →
      st.projectStatus.get (resolveProjectName rU.path) = some (.unbuildable reason) →
      ∃ st2, getUpToDateStatus env fs (Nat.succ fuel) st (some project) path =
        some (st2, .upstreamBlocked rU.path)) ∧
    (∀ (refs : List ProjectReference),
      project.projectReferences = some refs →
      (∀ r ∈ refs, resolveProjectName r.path ≠ path ∧
        envConfig env (resolveProjectName r.path) ≠ none ∧
        ∃ sv, st.projectStatus.get (resolveProjectName r.path) = some sv) →
      (∃ r ∈ refs, ∃ reason,
        st.projectStatus.get (resolveProjectName r.path) = some (.unbuildable reason)) →
      ∃ st2 up,
        getUpToDateStatus env fs (Nat.succ fuel) st (some project) path =
          some (st2, .upstreamBlocked up) ∨
        getUpToDateStatus env fs (Nat.succ fuel) st (some project) path =
          some (st2, .upstreamOutOfDate up)) := by
  constructor
  · intro pre rU post reason hrefs hpre hneU henvU hcachedU
    have hred := getUpToDateStatus_succ_uncached env fs fuel st project path huncached
    rw [getUpToDateStatusWorker_refs env fs (evalRefFn env fs fuel) st project path
      nn nt (pre ++ rU :: post) hinput hcontainer hrefs] at hred
    rw [hmiss] at hred
    have hcons1 : cacheConsistent env (refLoopStart st path) := hcons
    have hpre1 : ∀ r ∈ pre, envConfig env (resolveProjectName r.path) ≠ none ∧
        ((refLoopStart st path).projectStatus.get (resolveProjectName r.path) =
            some .computingUpstream ∨
          ∃ d, (refLoopStart st path).projectStatus.get (resolveProjectName r.path) =
            some (.upToDate d)) := by
      intro r hr
      obtain ⟨hne, henv, hcase⟩ := hpre r hr
      rw [refLoopStart_get_ne st path _ hne]
      exact ⟨henv, hcase⟩
    have hcachedU1 : (refLoopStart st path).projectStatus.get
        (resolveProjectName rU.path) = some (.unbuildable reason) := by
      rw [refLoopStart_get_ne st path _ hneU]
      exact hcachedU
    obtain ⟨st2, hscan⟩ := scanReferences_blocked env fs fuel
      (scanOutputs fs nt project.allOutputs {}).oldestOutputFileTime
      (scanOutputs fs nt project.allOutputs {}).oldestOutputFileName
      pre (refLoopStart st path) rU post false false none reason
      hcons1 hpre1 henvU hcachedU1
    rw [hscan] at hred
    exact ⟨_, by rw [hred]; rfl⟩
  · intro refs hrefs hall hex
    have hred := getUpToDateStatus_succ_uncached env fs fuel st project path huncached
    rw [getUpToDateStatusWorker_refs env fs (evalRefFn env fs fuel) st project path
      nn nt refs hinput hcontainer hrefs] at hred
    rw [hmiss] at hred
    have hcons1 : cacheConsistent env (refLoopStart st path) := hcons
    have hall1 : ∀ r ∈ refs, envConfig env (resolveProjectName r.path) ≠ none ∧
        ∃ sv, (refLoopStart st path).projectStatus.get (resolveProjectName r.path) =
          some sv := by
      intro r hr
      obtain ⟨hne, henv, hc⟩ := hall r hr
      rw [refLoopStart_get_ne st path _ hne]
      exact ⟨henv, hc⟩
    have hex1 : ∃ r ∈ refs, ∃ reason,
        (refLoopStart st path).projectStatus.get (resolveProjectName r.path) =
          some (.unbuildable reason) := by
      obtain ⟨r, hr, reason, hu⟩ := hex
      refine ⟨r, hr, reason, ?_⟩
      rw [refLoopStart_get_ne st path _ (hall r hr).1]
      exact hu
    obtain ⟨st2, up, hscan⟩ := scanReferences_no_output_missing env fs fuel
      (scanOutputs fs nt project.allOutputs {}).oldestOutputFileTime
      (scanOutputs fs nt project.allOutputs {}).oldestOutputFileName
      refs (refLoopStart st path) false false none hcons1 hall1 hex1
    rcases hscan with hl | hl
    · rw [hl] at hred
      exact ⟨_, up, Or.inl (by rw [hred]; rfl)⟩
    · rw [hl] at hred
      exact ⟨_, up, Or.inr (by rw [hred]; rfl)⟩

/-- The project under test for the status-priority analysis: two references,
one source file, one declared output. -/
def c3Project : ParsedCommandLine := mkConfig ["r1", "r2"]

/-- Host for the status-priority analysis: p references r1 and r2. -/
def c3Host : SolutionHost :=
  { configs := [("p", some c3Project), ("r1", some (mkConfig [])),
      ("r2", some (mkConfig []))],
    now := 100, tsVersion := "3.5.0",
    getBuildInfoVersion := fun _ => none,
    createProgram := fun _ _ => {},
    emitUsingBuildInfo := fun _ _ => Sum.inl "err",
    expandFileNames := fun _ => [] }

/-- File system for the status-priority analysis: the source exists, the
declared output out.js does not. -/
def c3Fs : FileSystem := [("src.ts", { mtime := 10, content := "" })]

/-- State in which r1 is cached as out of date with itself and r2 as
unbuildable. -/
def c3State : SolutionBuilderState :=
  { emptyState ["p"] with projectStatus :=
      [("r1", .outOfDateWithSelf "o" none), ("r2", .unbuildable "x")] }

/-- C3 counterexample: p misses an output and its reference r2 evaluates to
Unbuildable, yet the verdict is UpstreamOutOfDate (from the earlier
out-of-date r1), not UpstreamBlocked: Unbuildable beats OutputMissing only at
the first non-up-to-date reference. -/
theorem c3_counterexample_upstream_out_of_date :
    (scanOutputs c3Fs 10 c3Project.allOutputs {}).missingOutputFileName.isSome = true ∧
    (evalRefFn c3Host c3Fs 1 c3State "r2").map (fun pr => pr.2) =
      some (.unbuildable "x") ∧
    (getUpToDateStatus c3Host c3Fs 2 c3State (some c3Project) "p").map
      (fun pr => pr.2) = some (.upstreamOutOfDate "r1") ∧
    ∀ up, (UpToDateStatus.upstreamOutOfDate "r1") ≠ .upstreamBlocked up := by
  refine ⟨rfl, rfl, rfl, fun up h => by cases h⟩

/-- State in which r1 is cached as plainly up to date and r2 as unbuildable. -/
def c3StateW : SolutionBuilderState :=
  { emptyState ["p"] with projectStatus :=
      [("r1", .upToDate { oldestOutputFileName := "o" }), ("r2", .unbuildable "x")] }

theorem c3_status_priority_amended_witness :
    ∃ st2, getUpToDateStatus c3Host c3Fs (Nat.succ 1) c3StateW (some c3Project) "p" =
      some (st2, .upstreamBlocked "r2") := by
  refine (c3_status_priority_amended c3Host c3Fs 1 c3StateW c3Project "p"
    (some "src.ts") 10 ?_ rfl rfl rfl rfl).1
    [{ path := "r1", prepend := false, circular := false }]
    { path := "r2", prepend := false, circular := false } [] "x" rfl ?_ ?_ ?_ rfl
  · exact cacheConsistent_of_empty _ _ rfl
  · intro r hr
    cases List.mem_singleton.mp hr
    exact ⟨by decide, by decide, Or.inr ⟨{ oldestOutputFileName := "o" }, rfl⟩⟩
  · decide
  · decide

/-- The status update queueReferencingProjects performs on a matching
downstream project (the switch on its recorded status). -/
def queueStatusUpdate (project : String) (projectPath : Key)
    (buildResult : BuildResultFlags) (refPrepend : Bool)
    (st : SolutionBuilderState) (nextProjectPath : Key) : SolutionBuilderState :=
  match st.projectStatus.get nextProjectPath with
  | some (.upToDate d) =>
    if buildResult.declarationOutputUnchanged then
      if refPrepend then
        let s2 := UpToDateStatus.outOfDateWithPrepend d.oldestOutputFileName project
        { st with projectStatus := st.projectStatus.set nextProjectPath s2 }
      else
        let s2 := UpToDateStatus.upToDateWithUpstreamTypes d
        { st with projectStatus := st.projectStatus.set nextProjectPath s2 }
    else
      let s2 := UpToDateStatus.outOfDateWithUpstream d.oldestOutputFileName project
      { st with projectStatus := st.projectStatus.set nextProjectPath s2 }
  | some (.upToDateWithUpstreamTypes d) =>
    if buildResult.declarationOutputUnchanged then st
    else
      let s2 := UpToDateStatus.outOfDateWithUpstream d.oldestOutputFileName project
      { st with projectStatus := st.projectStatus.set nextProjectPath s2 }
  | some (.outOfDateWithPrepend outName _) =>
    if buildResult.declarationOutputUnchanged then st
    else
      let s2 := UpToDateStatus.outOfDateWithUpstream outName project
      { st with projectStatus := st.projectStatus.set nextProjectPath s2 }
  | some (.upstreamBlocked up) =>
    if resolveProjectName up = projectPath then
      { st with projectStatus := st.projectStatus.delete nextProjectPath }
    else st
  | _ => st

/-- One downstream candidate of queueReferencingProjects: skip it if already
pending, parse its config, and at its first reference matching the just-built
project update its status and enqueue it with reload level None. -/
def queueOneProject (env : SolutionHost) (project : String) (projectPath : Key)
    (buildResult : BuildResultFlags) (st : SolutionBuilderState)
    (nextProject : String) : SolutionBuilderState :=
  let nextProjectPath := resolveProjectName nextProject
  if st.projectPendingBuild.hasKey nextProjectPath then st
  else
    let pr := parseConfigFile env st nextProjectPath
    match pr.2 with
    | none => pr.1
    | some cfg =>
      match cfg.projectReferences with
      | none => pr.1
      | some refs =>
        match refs.find? (fun ref => resolveProjectName ref.path == projectPath) with
        | none => pr.1
        | some ref =>
          addProjToQueue
            (queueStatusUpdate project projectPath buildResult ref.prepend
              pr.1 nextProjectPath)
            nextProjectPath .rlNone

/-- Function queueReferencingProjects of the engine: bail out on any error bit
and on a non-composite just-built project, then walk the tail of the build
order. -/
def queueReferencingProjects (env : SolutionHost) (project : String)
    (projectPath : Key) (projectIndex : Nat) (config : ParsedCommandLine)
    (buildOrder : List String) (buildResult : BuildResultFlags)
    (st : SolutionBuilderState) : SolutionBuilderState :=
  if buildResult.anyErrors then st
  else if !config.composite then st
  else
    (buildOrder.drop (projectIndex + 1)).foldl
      (queueOneProject env project projectPath buildResult) st

/-- A downstream project that is itself not composite but references p. -/
def c4QConfig : ParsedCommandLine :=
  { mkConfig ["p"] with composite := false }

/-- Host for the downstream-propagation analysis: composite p, non-composite
q referencing p. -/
def c4Host : SolutionHost :=
  { configs := [("p", some (mkConfig [])), ("q", some c4QConfig)],
    now := 100, tsVersion := "3.5.0",
    getBuildInfoVersion := fun _ => none,
    createProgram := fun _ _ => {},
    emitUsingBuildInfo := fun _ _ => Sum.inl "err",
    expandFileNames := fun _ => [] }

/-- C4. Downstream propagation gates: queueReferencingProjects changes nothing
when any error bit of the build result is set, and changes nothing when the
just-built producing project is not composite; the composite test reads the
producing project, not the downstream one: a non-composite downstream project
referencing composite p is still enqueued. -/
theorem c4_queue_referencing_projects_gates (env : SolutionHost)
    (project : String) (projectPath : Key) (projectIndex : Nat)
    (config : ParsedCommandLine) (buildOrder : List String)
    (buildResult : BuildResultFlags) (st : SolutionBuilderState) :
    (buildResult.anyErrors = true →
      queueReferencingProjects env project projectPath projectIndex config
        buildOrder buildResult st = st) ∧
    (config.composite = false →
      queueReferencingProjects env project projectPath projectIndex config
        buildOrder buildResult st = st) ∧
    (c4QConfig.composite = false ∧
      (queueReferencingProjects c4Host "p" "p" 0 (mkConfig []) ["p", "q"]
        { success := true } (emptyState ["p"])).projectPendingBuild.get "q" =
        some .rlNone) := by
  refine ⟨?_, ?_, rfl, by decide⟩
  · intro h
    simp [queueReferencingProjects, h]
  · intro h
    simp only [queueReferencingProjects, h]
    cases hba : buildResult.anyErrors <;> simp

theorem c4_queue_referencing_projects_gates_witness :
    queueReferencingProjects c4Host "p" "p" 0 (mkConfig []) ["p", "q"]
      { typeErrors := true } (emptyState ["p"]) = emptyState ["p"] ∧
    queueReferencingProjects c4Host "q" "q" 0 c4QConfig ["q", "p"]
      { success := true } (emptyState ["p"]) = emptyState ["p"] := by
  constructor
  · exact (c4_queue_referencing_projects_gates c4Host "p" "p" 0 (mkConfig [])
      ["p", "q"] { typeErrors := true } (emptyState ["p"])).1 (by decide)
  · exact (c4_queue_referencing_projects_gates c4Host "q" "q" 0 c4QConfig
      ["q", "p"] { success := true } (emptyState ["p"])).2.1 (by decide)

/-- Function clearProjectStatus of the engine. -/
def clearProjectStatus (st : SolutionBuilderState) (resolved : Key) :
    SolutionBuilderState :=
  { st with projectStatus := st.projectStatus.delete resolved,
            diagnostics := st.diagnostics.delete resolved }

/-- Function invalidateProject of the engine (needsSummary and the watch-mode
cache are outside the model). -/
def invalidateProject (st : SolutionBuilderState) (resolved : Key)
    (reloadLevel : ReloadLevel) : SolutionBuilderState :=
  let st1 := if reloadLevel = ReloadLevel.rlFull then
    { st with configFileCache := st.configFileCache.delete resolved, buildOrder := none }
    else st
  addProjToQueue (clearProjectStatus st1 resolved) resolved reloadLevel

/-- Function reportAndStoreErrors of the engine; reporting to the host writes
no files, so only the stored state is modelled. -/
def reportAndStoreErrors (st : SolutionBuilderState) (proj : Key)
    (errors : List String) : SolutionBuilderState :=
  let st1 := { st with projectErrorsReported := st.projectErrorsReported.set proj true }
  if errors.isEmpty then st1
  else { st1 with diagnostics := st1.diagnostics.set proj errors }

/-- Function reportParseConfigFileDiagnostic of the engine: store the cached
parse diagnostic of the project. -/
def reportParseConfigFileDiagnostic (st : SolutionBuilderState) (proj : Key) :
    SolutionBuilderState :=
  reportAndStoreErrors st proj ["cannot parse " ++ proj]

/-- The evolving data of a clean pass: the builder state, the file system, the
log of host write effects, and the dry-run list of files that would go. -/
structure CleanPass where
  st : SolutionBuilderState
  fs : FileSystem
  effects : List HostEffect
  filesToDelete : List String
deriving DecidableEq

/-- The output loop of clean: delete each existing output (or record it in dry
mode) and invalidate its project. -/
def cleanOutputs (dry : Bool) (resolvedPath : Key) (cp : CleanPass)
    (outputs : List String) : CleanPass :=
  outputs.foldl (fun a output =>
    if fileExists a.fs output then
      if dry then { a with filesToDelete := a.filesToDelete ++ [output] }
      else
        let fs2 := fsDeleteFile a.fs output
        let eff2 := a.effects ++ [HostEffect.deleteFile output]
        let st2 := invalidateProject a.st resolvedPath ReloadLevel.rlNone
        { a with fs := fs2, effects := eff2, st := st2 }
    else a) cp

/-- The per-project body of clean: a failed parse is reported and skipped. -/
def cleanProject (env : SolutionHost) (dry : Bool) (cp : CleanPass) (proj : Key) :
    CleanPass :=
  let resolvedPath := resolveProjectName proj
  let pr := parseConfigFile env cp.st resolvedPath
  match pr.2 with
  | none => { cp with st := reportParseConfigFileDiagnostic pr.1 resolvedPath }
  | some parsed => cleanOutputs dry resolvedPath { cp with st := pr.1 } parsed.allOutputs

/-- Function clean of the engine: build-order lookup, per-project output
deletion (only collected in dry mode), and the exit status. The outer none is
fuel exhaustion of the build-order DFS. -/
def clean (env : SolutionHost) (fuel : Nat) (st : SolutionBuilderState)
    (fs : FileSystem) (project : Option String) : Option (CleanPass × ExitStatus) :=
  match getBuildOrderFor env fuel st project with
  | none => none
  | some (st1, none) =>
    some ({ st := st1, fs := fs, effects := [], filesToDelete := [] },
      ExitStatus.invalidProjectOutputsSkipped)
  | some (st1, some buildOrder) =>
    some (buildOrder.foldl (cleanProject env st1.options.dry)
      { st := st1, fs := fs, effects := [], filesToDelete := [] },
      ExitStatus.success)

/-- C10. clean returns Success exactly when the requested scope is found in
the build order, and InvalidProject_OutputsSkipped exactly when the requested
sub-project is not in the order; a project whose configuration fails to parse
is reported and stored during the pass without touching the file system or the
effect log, and without changing the exit status. -/
theorem c10_clean_success_iff_order_found (env : SolutionHost) (fuel : Nat)
    (st : SolutionBuilderState) (fs : FileSystem) (project : Option String)
    (cp : CleanPass) (e : ExitStatus)
    (hrun : clean env fuel st fs project = some (cp, e)) :
    ((e = .success ↔ ∃ st1 bo,
        getBuildOrderFor env fuel st project = some (st1, some bo)) ∧
      (e = .invalidProjectOutputsSkipped ↔
        getBuildOrderFor env fuel st project = some (cp.st, none))) ∧
    (∀ (dry : Bool) (cp2 : CleanPass) (proj : Key),
      (parseConfigFile env cp2.st (resolveProjectName proj)).2 = none →
      (cleanProject env dry cp2 proj).fs = cp2.fs ∧
      (cleanProject env dry cp2 proj).effects = cp2.effects ∧
      (cleanProject env dry cp2 proj).st.projectErrorsReported.get
        (resolveProjectName proj) = some true ∧
      (cleanProject env dry cp2 proj).st.diagnostics.get
        (resolveProjectName proj) =
        some ["cannot parse " ++ resolveProjectName proj]) := by
  constructor
  · simp only [clean] at hrun
    cases hbo : getBuildOrderFor env fuel st project with
    | none =>
      rw [hbo] at hrun
      cases hrun
    | some p =>
      rw [hbo] at hrun
      obtain ⟨st1, obo⟩ := p
      cases obo with
      | none =>
        simp only [] at hrun
        injection hrun with h
        injection h with h1 h2
        subst h1
        subst h2
        constructor
        · constructor
          · intro h
            cases h
          · intro ⟨st2, bo, h⟩
            injection h with h
            injection h with h3 h4
            cases h4
        · simp
      | some bo =>
        simp only [] at hrun
        injection hrun with h
        injection h with h1 h2
        subst h1
        subst h2
        constructor
        · exact ⟨fun _ => ⟨st1, bo, rfl⟩, fun _ => rfl⟩
        · constructor
          · intro h
            cases h
          · intro h
            injection h with h
            injection h with h3 h4
            cases h4
  · intro dry cp2 proj h
    simp only [cleanProject]
    rw [h]
    refine ⟨rfl, rfl, ?_, ?_⟩
    · simp [reportParseConfigFileDiagnostic, reportAndStoreErrors]
    · simp [reportParseConfigFileDiagnostic, reportAndStoreErrors]

theorem c10_clean_success_iff_order_found_witness :
    ∃ cp, clean acyclicHost 9 (emptyState ["a"]) SMap.empty none =
        some (cp, ExitStatus.success) ∧
      ((ExitStatus.success = ExitStatus.success) ↔ ∃ st1 bo,
        getBuildOrderFor acyclicHost 9 (emptyState ["a"]) none =
          some (st1, some bo)) := by
  obtain ⟨cp, hrun⟩ : ∃ cp, clean acyclicHost 9 (emptyState ["a"]) SMap.empty none =
      some (cp, ExitStatus.success) := ⟨_, rfl⟩
  exact ⟨cp, hrun, ((c10_clean_success_iff_order_found acyclicHost 9
    (emptyState ["a"]) SMap.empty none cp ExitStatus.success hrun).1).1⟩

/-- External helper getFirstProjectOutput, modelled as the first declared
output of the project. -/
def getFirstProjectOutput (proj : ParsedCommandLine) : String :=
  proj.allOutputs.headD ""

/-- The evolving data of a build pass: the builder state, the file system and
the log of host write effects. -/
structure BuildPass where
  st : SolutionBuilderState
  fs : FileSystem
  effects : List HostEffect
deriving DecidableEq

/-- One timestamp update of updateOutputTimestampsWorker: fold the prior
declaration time and stamp the file with the host clock. -/
def stampOne (env : SolutionHost) (a : BuildPass × Time) (file : String) :
    BuildPass × Time :=
  let t2 := if isDeclarationFile file then
    newer a.2 ((getModifiedTime a.1.fs file).getD missingFileModifiedTime) else a.2
  let fs2 := fsSetModifiedTime a.1.fs file env.now
  let eff2 := a.1.effects ++ [HostEffect.setModifiedTime file env.now]
  ({ a.1 with fs := fs2, effects := eff2 }, t2)

/-- Function updateOutputTimestampsWorker of the engine: skip entirely when
the emitted outputs cover every declared output, otherwise stamp each
non-emitted output with the host clock. -/
def updateOutputTimestampsWorker (env : SolutionHost) (bp : BuildPass)
    (proj : ParsedCommandLine) (priorNewestUpdateTime : Time)
    (skipOutputs : Option (List Key)) : BuildPass × Time :=
  let outputs := proj.allOutputs
  let skipAll := match skipOutputs with
    | some skips => outputs.length == skips.length
    | none => false
  if skipAll then (bp, priorNewestUpdateTime)
  else
    outputs.foldl (fun a file =>
      match skipOutputs with
      | some skips => if skips.contains file then a else stampOne env a file
      | none => stampOne env a file) (bp, priorNewestUpdateTime)

/-- Function updateOutputTimestamps of the engine: a dry run only reports. -/
def updateOutputTimestamps (env : SolutionHost) (bp : BuildPass)
    (proj : ParsedCommandLine) (resolvedPath : Key) : BuildPass :=
  if bp.st.options.dry then bp
  else
    let pr := updateOutputTimestampsWorker env bp proj minimumDate none
    let d : UpToDateData := { newestDeclarationFileContentChangedTime := some pr.2, oldestOutputFileName := getFirstProjectOutput proj }
    let st2 := { pr.1.st with
      projectStatus := pr.1.st.projectStatus.set resolvedPath (.upToDate d) }
    { pr.1 with st := st2 }

/-- Function buildErrors of the engine: store the diagnostics and mark the
project unbuildable with the error-type reason. -/
def buildErrors (bp : BuildPass) (resolvedPath : Key) (diags : List String)
    (errorFlags : BuildResultFlags) (errorType : String) :
    BuildPass × BuildResultFlags :=
  let st1 := reportAndStoreErrors bp.st resolvedPath diags
  let st2 := { st1 with projectStatus :=
    st1.projectStatus.set resolvedPath (.unbuildable (errorType ++ " errors")) }
  ({ bp with st := st2 }, errorFlags)

/-- Accumulator of the emit loop of buildSingleProject. -/
structure EmitAcc where
  bp : BuildPass
  declUnchanged : Bool := true
  anyDtsChanged : Bool := false
  newestDeclTime : Time := minimumDate
  emittedOutputs : List Key := []
deriving DecidableEq

/-- One emitted file of buildSingleProject: detect an unchanged declaration
file, record the emitted name, and write the file at the host clock. -/
def emitOne (env : SolutionHost) (acc : EmitAcc) (f : OutputFile) : EmitAcc :=
  let unchanged := fileExists acc.bp.fs f.name &&
    (readFile acc.bp.fs f.name == some f.text)
  let dtsCheck := !acc.anyDtsChanged && isDeclarationFile f.name
  let prior : Option Time :=
    if dtsCheck && unchanged then getModifiedTime acc.bp.fs f.name else none
  let declUnchanged2 := if dtsCheck && !unchanged then false else acc.declUnchanged
  let anyDts2 := if dtsCheck && !unchanged then true else acc.anyDtsChanged
  let emitted2 := if acc.emittedOutputs.contains f.name then acc.emittedOutputs
    else acc.emittedOutputs ++ [f.name]
  let fs2 := fsWriteFile acc.bp.fs f.name f.text env.now
  let eff2 := acc.bp.effects ++ [HostEffect.writeFile f.name]
  let newest2 := match prior with
    | some t => newer t acc.newestDeclTime
    | none => acc.newestDeclTime
  { bp := { acc.bp with fs := fs2, effects := eff2 },
    declUnchanged := declUnchanged2, anyDtsChanged := anyDts2,
    newestDeclTime := newest2, emittedOutputs := emitted2 }

/-- Function buildSingleProject of the engine: dry runs report only; the
program builder is the external oracle of the host; emitter diagnostics of the
modelled host writes are always empty. -/
def buildSingleProject (env : SolutionHost) (bp : BuildPass) (proj : Key)
    (resolvedPath : Key) (config : ParsedCommandLine) :
    BuildPass × BuildResultFlags :=
  if bp.st.options.dry then (bp, { success := true })
  else if config.fileNames.isEmpty then
    ({ bp with st := reportAndStoreErrors bp.st resolvedPath config.errors }, {})
  else
    let program := env.createProgram resolvedPath bp.fs
    let syntaxDiagnostics := program.configFileParsingDiagnostics ++
      program.optionsDiagnostics ++ program.globalDiagnostics ++
      program.syntacticDiagnostics
    if !syntaxDiagnostics.isEmpty then
      buildErrors bp resolvedPath syntaxDiagnostics
        { syntacticErrors := true } "Syntactic"
    else if !program.semanticDiagnostics.isEmpty then
      buildErrors bp resolvedPath program.semanticDiagnostics
        { typeErrors := true } "Semantic"
    else if !program.declarationDiagnostics.isEmpty then
      buildErrors bp resolvedPath program.declarationDiagnostics
        { declarationEmitErrors := true } "Declaration file"
    else
      let acc := program.outputFiles.foldl (emitOne env) { bp := bp }
      let emitDiagnostics : List String := []
      if !emitDiagnostics.isEmpty then
        buildErrors acc.bp resolvedPath emitDiagnostics
          { emitErrors := true } "Emit"
      else
        let wr := updateOutputTimestampsWorker env acc.bp config
          acc.newestDeclTime (some acc.emittedOutputs)
        let declTime := if acc.anyDtsChanged then maximumDate else wr.2
        let oldestName := match program.outputFiles.head? with
          | some f0 => f0.name
          | none => getFirstProjectOutput config
        let d : UpToDateData := { newestDeclarationFileContentChangedTime := some declTime, oldestOutputFileName := oldestName }
        let st1 := { wr.1.st with diagnostics := wr.1.st.diagnostics.delete resolvedPath }
        let st2 := { st1 with projectStatus :=
          st1.projectStatus.set resolvedPath (.upToDate d) }
        ({ wr.1 with st := st2 }, { declarationOutputUnchanged := acc.declUnchanged })

/-- One emitted file of updateBundle. -/
def emitBundleOne (env : SolutionHost) (a : BuildPass × List Key) (f : OutputFile) :
    BuildPass × List Key :=
  let emitted2 := if a.2.contains f.name then a.2 else a.2 ++ [f.name]
  let fs2 := fsWriteFile a.1.fs f.name f.text env.now
  let eff2 := a.1.effects ++ [HostEffect.writeFile f.name]
  ({ a.1 with fs := fs2, effects := eff2 }, emitted2)

/-- Function updateBundle of the engine: dry runs report only; a string from
the build-info emitter names the unreadable file and falls back to a full
build in the caller. -/
def updateBundle (env : SolutionHost) (bp : BuildPass) (proj : Key)
    (resolvedPath : Key) (config : ParsedCommandLine) :
    Sum String (BuildPass × BuildResultFlags) :=
  if bp.st.options.dry then Sum.inr (bp, { success := true })
  else
    match env.emitUsingBuildInfo resolvedPath bp.fs with
    | Sum.inl errFile => Sum.inl errFile
    | Sum.inr outputFiles =>
      let pr := outputFiles.foldl (emitBundleOne env) (bp, [])
      let emitDiagnostics : List String := []
      if !emitDiagnostics.isEmpty then
        Sum.inr (buildErrors pr.1 resolvedPath emitDiagnostics
          { emitErrors := true } "Emit")
      else
        let wr := updateOutputTimestampsWorker env pr.1 config minimumDate (some pr.2)
        let oldestName := match outputFiles.head? with
          | some f0 => f0.name
          | none => ""
        let d : UpToDateData := { newestDeclarationFileContentChangedTime := some wr.2, oldestOutputFileName := oldestName }
        let st1 := { wr.1.st with diagnostics := wr.1.st.diagnostics.delete resolvedPath }
        let st2 := { st1 with projectStatus :=
          st1.projectStatus.set resolvedPath (.upToDate d) }
        Sum.inr ({ wr.1 with st := st2 }, { declarationOutputUnchanged := true })

/-- Function needsBuild of the engine. -/
def needsBuild (st : SolutionBuilderState) (status : UpToDateStatus)
    (config : ParsedCommandLine) : Bool :=
  match status with
  | .outOfDateWithPrepend _ _ =>
    if st.options.force then true
    else config.fileNames.isEmpty || !config.errors.isEmpty ||
      !config.incrementalCompilation
  | _ => true

/-- The three kinds of invalidated project. -/
inductive InvalidatedProjectKind where
  | buildKind
  | updateBundleKind
  | updateOutputFileStampsKind
deriving DecidableEq

/-- An invalidated project as handed to the dispatcher loop; done is modelled
by doneInvalidatedProject. -/
structure InvalidatedProject where
  kind : InvalidatedProjectKind
  project : Key
  projectPath : Key
  projectIndex : Nat
  config : ParsedCommandLine
deriving DecidableEq

/-- The decision getNextInvalidatedProject takes once a project status is
known: skip it, update its output stamps, or hand it to build or bundle. -/
inductive NextAction where
  | skip
  | stamps
  | run (kind : InvalidatedProjectKind)
deriving DecidableEq

/-- The status dispatch of getNextInvalidatedProject: without force, UpToDate
skips and UpToDateWithUpstreamTypes updates stamps; UpstreamBlocked and
ContainerOnly always skip; the rest build or update the bundle. -/
def classifyStatus (st : SolutionBuilderState) (status : UpToDateStatus)
    (config : ParsedCommandLine) : NextAction :=
  if st.options.force = false then
    match status with
    | .upToDate _ => .skip
    | .upToDateWithUpstreamTypes _ => .stamps
    | .upstreamBlocked _ => .skip
    | .containerOnly => .skip
    | _ => if needsBuild st status config then .run .buildKind
      else .run .updateBundleKind
  else
    match status with
    | .upstreamBlocked _ => .skip
    | .containerOnly => .skip
    | _ => if needsBuild st status config then .run .buildKind
      else .run .updateBundleKind

/-- The scan of getNextInvalidatedProject over the indexed build order: skip
non-pending projects, report and drop unparseable ones, re-expand Partial
reloads through the host, evaluate the status and dispatch. -/
def nextInvalidated (env : SolutionHost) (fs : FileSystem) (fuel : Nat) :
    SolutionBuilderState → List (Nat × Key) →
    Option (SolutionBuilderState × Option InvalidatedProject)
  | st, [] => some (st, none)
  | st, (projectIndex, project) :: rest =>
    let projectPath := resolveProjectName project
    match st.projectPendingBuild.get projectPath with
    | none => nextInvalidated env fs fuel st rest
    | some reloadLevel =>
      let pr := parseConfigFile env st projectPath
      match pr.2 with
      | none =>
        let st1 := reportParseConfigFileDiagnostic pr.1 projectPath
        let st2 := { st1 with
          projectPendingBuild := st1.projectPendingBuild.delete projectPath }
        nextInvalidated env fs fuel st2 rest
      | some config0 =>
        let config := if reloadLevel = ReloadLevel.rlPart then
          { config0 with fileNames := env.expandFileNames projectPath } else config0
        match getUpToDateStatus env fs fuel pr.1 (some config) projectPath with
        | none => none
        | some (st2, status) =>
          match classifyStatus st2 status config with
          | .skip =>
            let st3 := reportAndStoreErrors st2 projectPath config.errors
            let st4 := { st3 with
              projectPendingBuild := st3.projectPendingBuild.delete projectPath }
            nextInvalidated env fs fuel st4 rest
          | .stamps =>
            let st3 := reportAndStoreErrors st2 projectPath config.errors
            some (st3, some { kind := .updateOutputFileStampsKind, project := project, projectPath := projectPath, projectIndex := projectIndex, config := config })
          | .run kind =>
            some (st2, some { kind := kind, project := project, projectPath := projectPath, projectIndex := projectIndex, config := config })

/-- Function getNextInvalidatedProject of the engine. -/
def getNextInvalidatedProject (env : SolutionHost) (fs : FileSystem) (fuel : Nat)
    (st : SolutionBuilderState) (buildOrder : List Key) :
    Option (SolutionBuilderState × Option InvalidatedProject) :=
  nextInvalidated env fs fuel st buildOrder.enum

/-- The done handler of an invalidated project with its action still pending,
as build() always invokes it: output-stamp update, single-project build with
downstream queueing, or bundle update falling back to a full build. -/
def doneInvalidatedProject (env : SolutionHost) (buildOrder : List Key)
    (bp : BuildPass) (ip : InvalidatedProject) : BuildPass :=
  match ip.kind with
  | .updateOutputFileStampsKind =>
    let bp1 := updateOutputTimestamps env bp ip.config ip.projectPath
    let st2 := { bp1.st with
      projectPendingBuild := bp1.st.projectPendingBuild.delete ip.projectPath }
    { bp1 with st := st2 }
  | .buildKind =>
    let pr := buildSingleProject env bp ip.project ip.projectPath ip.config
    let st2 := queueReferencingProjects env ip.project ip.projectPath
      ip.projectIndex ip.config buildOrder pr.2 pr.1.st
    let st3 := { st2 with
      projectPendingBuild := st2.projectPendingBuild.delete ip.projectPath }
    { pr.1 with st := st3 }
  | .updateBundleKind =>
    match updateBundle env bp ip.project ip.projectPath ip.config with
    | Sum.inl _ =>
      let pr := buildSingleProject env bp ip.project ip.projectPath ip.config
      let st2 := queueReferencingProjects env ip.project ip.projectPath
        ip.projectIndex ip.config buildOrder pr.2 pr.1.st
      let st3 := { st2 with
        projectPendingBuild := st2.projectPendingBuild.delete ip.projectPath }
      { pr.1 with st := st3 }
    | Sum.inr pr =>
      let st2 := queueReferencingProjects env ip.project ip.projectPath
        ip.projectIndex ip.config buildOrder pr.2 pr.1.st
      let st3 := { st2 with
        projectPendingBuild := st2.projectPendingBuild.delete ip.projectPath }
      { pr.1 with st := st3 }

/-- Function setupInitialBuild of the engine: on the first invocation mark
every project of the build order pending with reload level None. -/
def setupInitialBuild (env : SolutionHost) (fuel : Nat)
    (st : SolutionBuilderState) : Option SolutionBuilderState :=
  if st.allProjectBuildPending = false then some st
  else
    match getBuildOrder env fuel { st with allProjectBuildPending := false } with
    | none => none
    | some (st1, buildOrder) =>
      some (buildOrder.foldl (fun s p =>
        { s with projectPendingBuild :=
          s.projectPendingBuild.set (resolveProjectName p) ReloadLevel.rlNone }) st1)

/-- The while loop of build(): fetch the next invalidated project, run its
done handler, and count error and successful projects. The loop fuel bounds
the iterations of the model. -/
def buildLoop (env : SolutionHost) (fuel : Nat) (buildOrder : List Key) :
    Nat → BuildPass → Nat → Nat → Option (BuildPass × Nat × Nat)
  | 0, _, _, _ => none
  | Nat.succ n, bp, successCount, errorCount =>
    match getNextInvalidatedProject env bp.fs fuel bp.st buildOrder with
    | none => none
    | some (st1, none) => some ({ bp with st := st1 }, successCount, errorCount)
    | some (st1, some ip) =>
      let bp2 := doneInvalidatedProject env buildOrder { bp with st := st1 } ip
      if bp2.st.diagnostics.hasKey ip.projectPath then
        buildLoop env fuel buildOrder n bp2 successCount (errorCount + 1)
      else
        buildLoop env fuel buildOrder n bp2 (successCount + 1) errorCount

/-- Function build of the engine: build-order lookup, initial queueing, the
dispatcher loop, and the exit status from the error and success counts. -/
def build (env : SolutionHost) (fuel loopFuel : Nat) (st : SolutionBuilderState)
    (fs : FileSystem) (project : Option String) : Option (BuildPass × ExitStatus) :=
  match getBuildOrderFor env fuel st project with
  | none => none
  | some (st1, none) =>
    some ({ st := st1, fs := fs, effects := [] },
      ExitStatus.invalidProjectOutputsSkipped)
  | some (st1, some buildOrder) =>
    match setupInitialBuild env fuel st1 with
    | none => none
    | some st2 =>
      (buildLoop env fuel buildOrder loopFuel
        { st := st2, fs := fs, effects := [] } 0 0).map (fun r =>
          let e := if r.2.2 ≠ 0 then
              (if r.2.1 ≠ 0 then ExitStatus.diagnosticsPresentOutputsGenerated
                else ExitStatus.diagnosticsPresentOutputsSkipped)
            else ExitStatus.success
          (r.1, e))

theorem parseConfigFile_options (env : SolutionHost) (st : SolutionBuilderState)
    (k : Key) : (parseConfigFile env st k).1.options = st.options := by
  unfold parseConfigFile
  split <;> rfl

theorem reportAndStoreErrors_options (st : SolutionBuilderState) (proj : Key)
    (errors : List String) :
    (reportAndStoreErrors st proj errors).options = st.options := by
  unfold reportAndStoreErrors
  split <;> rfl

theorem reportParseConfigFileDiagnostic_options (st : SolutionBuilderState)
    (proj : Key) :
    (reportParseConfigFileDiagnostic st proj).options = st.options :=
  reportAndStoreErrors_options st proj _

theorem addProjToQueue_options (st : SolutionBuilderState) (proj : Key)
    (l : ReloadLevel) : (addProjToQueue st proj l).options = st.options := by
  unfold addProjToQueue
  repeat' split
  all_goals rfl

theorem queueStatusUpdate_options (project : String) (projectPath : Key)
    (buildResult : BuildResultFlags) (refPrepend : Bool)
    (st : SolutionBuilderState) (nextProjectPath : Key) :
    (queueStatusUpdate project projectPath buildResult refPrepend st
      nextProjectPath).options = st.options := by
  unfold queueStatusUpdate
  repeat' split
  all_goals rfl

theorem queueOneProject_options (env : SolutionHost) (project : String)
    (projectPath : Key) (buildResult : BuildResultFlags)
    (st : SolutionBuilderState) (nextProject : String) :
    (queueOneProject env project projectPath buildResult st nextProject).options =
      st.options := by
  unfold queueOneProject
  simp only []
  split
  · rfl
  · split
    · exact parseConfigFile_options env st _
    · split
      · exact parseConfigFile_options env st _
      · split
        · exact parseConfigFile_options env st _
        · rw [addProjToQueue_options, queueStatusUpdate_options,
            parseConfigFile_options]

theorem foldl_state_options {α : Type} (f : SolutionBuilderState → α → SolutionBuilderState)
    (h : ∀ s a, (f s a).options = s.options) (l : List α) :
    ∀ s, (l.foldl f s).options = s.options := by
  induction l with
  | nil => intro s; rfl
  | cons a l ih => intro s; rw [List.foldl_cons, ih, h]

theorem queueReferencingProjects_options (env : SolutionHost) (project : String)
    (projectPath : Key) (projectIndex : Nat) (config : ParsedCommandLine)
    (buildOrder : List String) (buildResult : BuildResultFlags)
    (st : SolutionBuilderState) :
    (queueReferencingProjects env project projectPath projectIndex config
      buildOrder buildResult st).options = st.options := by
  unfold queueReferencingProjects
  repeat' split
  · rfl
  · rfl
  · exact foldl_state_options _ (fun s a => queueOneProject_options env project
      projectPath buildResult s a) _ st

theorem visitRefs_options
    (v : BuildOrderAcc → Key → Bool → Option BuildOrderAcc)
    (hc : ∀ acc k b acc2, v acc k b = some acc2 → acc2.st.options = acc.st.options) :
    ∀ (refs : List ProjectReference) (acc : BuildOrderAcc) (b : Bool)
      (acc2 : BuildOrderAcc), visitRefs v acc refs b = some acc2 →
      acc2.st.options = acc.st.options := by
  intro refs
  induction refs with
  | nil =>
    intro acc b acc2 h
    simp only [visitRefs] at h
    cases h
    rfl
  | cons ref rest ih =>
    intro acc b acc2 h
    simp only [visitRefs] at h
    cases hv : v acc (resolveProjectName ref.path) (b || ref.circular) with
    | none => rw [hv] at h; cases h
    | some accm =>
      rw [hv] at h
      simp only [] at h
      exact (ih _ _ _ h).trans (hc _ _ _ _ hv)

theorem visit_options (env : SolutionHost) :
    ∀ (fuel : Nat) (acc : BuildOrderAcc) (k : Key) (b : Bool) (acc2 : BuildOrderAcc),
      visit env fuel acc k b = some acc2 → acc2.st.options = acc.st.options := by
  intro fuel
  induction fuel with
  | zero => intro acc k b acc2 h; cases h
  | succ fuel ih =>
    intro acc k b acc2 h
    simp only [visit] at h
    split at h
    · cases h; rfl
    · split at h
      · split at h <;> (cases h; rfl)
      · unfold visitFresh at h
        simp only [Option.map_eq_some'] at h
        obtain ⟨acc3, hrefs, hmk⟩ := h
        have h1 := visitRefs_options (visit env fuel) ih _ _ _ _ hrefs
        rw [← hmk]
        exact h1.trans (parseConfigFile_options env _ _)

theorem visitRoots_options
    (v : BuildOrderAcc → Key → Bool → Option BuildOrderAcc)
    (hc : ∀ acc k b acc2, v acc k b = some acc2 → acc2.st.options = acc.st.options) :
    ∀ (roots : List Key) (acc : BuildOrderAcc) (acc2 : BuildOrderAcc),
      visitRoots v acc roots = some acc2 → acc2.st.options = acc.st.options := by
  intro roots
  induction roots with
  | nil =>
    intro acc acc2 h
    simp only [visitRoots] at h
    cases h
    rfl
  | cons r rest ih =>
    intro acc acc2 h
    simp only [visitRoots] at h
    cases hv : v acc r false with
    | none => rw [hv] at h; cases h
    | some accm =>
      rw [hv] at h
      simp only [] at h
      exact (ih _ _ h).trans (hc _ _ _ _ hv)

theorem createBuildOrder_options (env : SolutionHost) (fuel : Nat)
    (st : SolutionBuilderState) (roots : List Key) (acc : BuildOrderAcc)
    (h : createBuildOrder env fuel st roots = some acc) :
    acc.st.options = st.options :=
  visitRoots_options (visit env fuel) (visit_options env fuel) roots (initAcc st) acc h

theorem getBuildOrder_options (env : SolutionHost) (fuel : Nat)
    (st : SolutionBuilderState) (st1 : SolutionBuilderState) (bo : List Key)
    (h : getBuildOrder env fuel st = some (st1, bo)) : st1.options = st.options := by
  unfold getBuildOrder at h
  split at h
  · cases h; rfl
  · simp only [Option.map_eq_some'] at h
    obtain ⟨acc, hacc, hmk⟩ := h
    have h1 := createBuildOrder_options env fuel st _ acc hacc
    injection hmk with h2 h3
    rw [← h2]
    exact h1

theorem getBuildOrderFor_options (env : SolutionHost) (fuel : Nat)
    (st : SolutionBuilderState) (project : Option String)
    (st1 : SolutionBuilderState) (obo : Option (List Key))
    (h : getBuildOrderFor env fuel st project = some (st1, obo)) :
    st1.options = st.options := by
  unfold getBuildOrderFor at h
  split at h
  · simp only [Option.map_eq_some'] at h
    obtain ⟨p, hp, hmk⟩ := h
    injection hmk with h2 h3
    rw [← h2]
    exact getBuildOrder_options env fuel st p.1 p.2 (by rw [hp])
  · split at h
    · simp only [Option.map_eq_some'] at h
      obtain ⟨p, hp, hmk⟩ := h
      injection hmk with h2 h3
      rw [← h2]
      exact getBuildOrder_options env fuel st p.1 p.2 (by rw [hp])
    · split at h
      · cases h
      · rename_i st2 bo heq
        simp only [] at h
        split at h
        · simp only [Option.map_eq_some'] at h
          obtain ⟨acc, hacc, hmk⟩ := h
          injection hmk with h2 h3
          rw [← h2]
          exact (createBuildOrder_options env fuel st2 _ acc hacc).trans
            (getBuildOrder_options env fuel st st2 bo heq)
        · cases h
          exact getBuildOrder_options env fuel st st1 bo heq

theorem buildInfoGate_options (env : SolutionHost) (fs : FileSystem)
    (st : SolutionBuilderState) (project : ParsedCommandLine) (resolvedPath : Key) :
    (buildInfoGate env fs st project resolvedPath).1.options = st.options := by
  unfold buildInfoGate
  repeat' split
  all_goals rfl

theorem workerTail_options (env : SolutionHost) (fs : FileSystem)
    (st : SolutionBuilderState) (project : ParsedCommandLine) (path : Key)
    (scan : OutputScan) (nn : Option String) (nt : Time)
    (p u : Bool) (c : Option String) :
    (workerTail env fs st project path scan nn nt p u c).1.options = st.options := by
  rw [workerTail]
  split
  · rfl
  · split
    · rfl
    · split
      · rfl
      · split
        · rfl
        · split
          · rename_i st2 s heq
            have h1 := buildInfoGate_options env fs st project path
            rw [heq] at h1
            exact h1
          · rename_i st2 heq
            have h1 := buildInfoGate_options env fs st project path
            rw [heq] at h1
            split
            · exact h1
            · split <;> exact h1

theorem scanReferences_options
    (evalRef : SolutionBuilderState → String →
      Option (SolutionBuilderState × UpToDateStatus))
    (hc : ∀ st p st2 r, evalRef st p = some (st2, r) → st2.options = st.options)
    (missing : Bool) (oldest : Time) (oldestName : String) :
    ∀ (refs : List ProjectReference) (st : SolutionBuilderState)
      (pseudo uses : Bool) (upstream : Option String)
      (st2 : SolutionBuilderState) (res : RefLoopResult),
      scanReferences evalRef missing oldest oldestName st refs pseudo uses upstream =
        some (st2, res) →
      st2.options = st.options := by
  intro refs
  induction refs with
  | nil =>
    intro st pseudo uses upstream st2 res hrun
    simp only [scanReferences] at hrun
    cases hrun
    rfl
  | cons ref rest ih =>
    intro st pseudo uses upstream st2 res hrun
    simp only [scanReferences] at hrun
    cases hev : evalRef st (resolveProjectName ref.path) with
    | none => rw [hev] at hrun; simp at hrun
    | some pr =>
      obtain ⟨stE, refStatus⟩ := pr
      rw [hev] at hrun
      simp only [Option.some_bind] at hrun
      have hEopts : stE.options = st.options := hc st _ stE refStatus hev
      have step : ∀ p2 u2 up2,
          scanReferences evalRef missing oldest oldestName stE rest p2 u2 up2 =
            some (st2, res) → st2.options = st.options := by
        intro p2 u2 up2 hrec
        exact (ih stE p2 u2 up2 st2 res hrec).trans hEopts
      repeat' split at hrun
      all_goals first
        | exact step _ _ _ hrun
        | (cases hrun; exact hEopts)

theorem getUpToDateStatusWorker_options (env : SolutionHost) (fs : FileSystem)
    (evalRef : SolutionBuilderState → String →
      Option (SolutionBuilderState × UpToDateStatus))
    (hc : ∀ st p st2 r, evalRef st p = some (st2, r) → st2.options = st.options)
    (st : SolutionBuilderState) (project : ParsedCommandLine) (path : Key)
    (st2 : SolutionBuilderState) (s : UpToDateStatus)
    (hrun : getUpToDateStatusWorker env fs evalRef st project path = some (st2, s)) :
    st2.options = st.options := by
  rw [getUpToDateStatusWorker] at hrun
  cases hin : computeNewestInput fs project.fileNames (none, minimumDate) with
  | inl missingInput =>
    rw [hin] at hrun
    simp only [] at hrun
    cases hrun
    rfl
  | inr nn =>
    obtain ⟨newestName, newestTime⟩ := nn
    rw [hin] at hrun
    simp only [] at hrun
    split at hrun
    · cases hrun
      rfl
    · cases hrefs : project.projectReferences with
      | some refs =>
        rw [hrefs] at hrun
        simp only [Option.map_eq_some'] at hrun
        obtain ⟨pr2, hscan, hmk⟩ := hrun
        obtain ⟨stW, rW⟩ := pr2
        have h1 : stW.options = st.options :=
          scanReferences_options evalRef hc _ _ _ refs
            { st with projectStatus :=
              st.projectStatus.set path UpToDateStatus.computingUpstream }
            false false none stW rW hscan
        cases rW with
        | final sf =>
          simp only [] at hmk
          cases hmk
          exact h1
        | through p u c =>
          simp only [] at hmk
          have ht := workerTail_options env fs stW project path
            (scanOutputs fs newestTime project.allOutputs {}) newestName
            newestTime p u c
          rw [hmk] at ht
          exact ht.trans h1
      | none =>
        rw [hrefs] at hrun
        simp only [Option.map_eq_some'] at hrun
        obtain ⟨pr2, hscan, hmk⟩ := hrun
        injection hscan with h2
        subst h2
        simp only [] at hmk
        have h3 := workerTail_options env fs st project path
          (scanOutputs fs newestTime project.allOutputs {}) newestName
          newestTime false false none
        rw [hmk] at h3
        exact h3

theorem getUpToDateStatus_options (env : SolutionHost) (fs : FileSystem) :
    ∀ (fuel : Nat) (st : SolutionBuilderState) (cfg : Option ParsedCommandLine)
      (path : Key) (st2 : SolutionBuilderState) (r : UpToDateStatus),
      getUpToDateStatus env fs fuel st cfg path = some (st2, r) →
      st2.options = st.options := by
  intro fuel
  induction fuel with
  | zero =>
    intro st cfg path st2 r hrun
    cases cfg with
    | none =>
      simp only [getUpToDateStatus] at hrun
      cases hrun
      rfl
    | some project =>
      simp only [getUpToDateStatus] at hrun
      cases hprior : st.projectStatus.get path with
      | some prior =>
        rw [hprior] at hrun
        simp only [] at hrun
        cases hrun
        rfl
      | none =>
        rw [hprior] at hrun
        simp only [] at hrun
        cases hrun
  | succ fuel ih =>
    intro st cfg path st2 r hrun
    cases cfg with
    | none =>
      simp only [getUpToDateStatus] at hrun
      cases hrun
      rfl
    | some project =>
      simp only [getUpToDateStatus] at hrun
      cases hprior : st.projectStatus.get path with
      | some prior =>
        rw [hprior] at hrun
        simp only [] at hrun
        cases hrun
        rfl
      | none =>
        rw [hprior] at hrun
        simp only [Option.map_eq_some'] at hrun
        obtain ⟨pr2, hw, hmk⟩ := hrun
        have hc : ∀ stx p stx2 rx,
            (fun stx p => getUpToDateStatus env fs fuel
              (parseConfigFile env stx p).1 (parseConfigFile env stx p).2 p)
              stx p = some (stx2, rx) → stx2.options = stx.options := by
          intro stx p stx2 rx hx
          exact (ih _ _ _ _ _ hx).trans (parseConfigFile_options env stx p)
        have h1 := getUpToDateStatusWorker_options env fs _ hc st project path
          pr2.1 pr2.2 hw
        cases hmk
        exact h1

theorem setupInitialBuild_options (env : SolutionHost) (fuel : Nat)
    (st : SolutionBuilderState) (st2 : SolutionBuilderState)
    (h : setupInitialBuild env fuel st = some st2) : st2.options = st.options := by
  unfold setupInitialBuild at h
  split at h
  · cases h; rfl
  · split at h
    · cases h
    · rename_i st1 bo heq
      cases h
      have hg : st1.options = st.options :=
        getBuildOrder_options env fuel
          { st with allProjectBuildPending := false } st1 bo heq
      exact (foldl_state_options (fun s p =>
        { s with projectPendingBuild :=
          s.projectPendingBuild.set (resolveProjectName p) ReloadLevel.rlNone })
        (fun s p => rfl) bo st1).trans hg

theorem nextInvalidated_options (env : SolutionHost) (fs : FileSystem) (fuel : Nat) :
    ∀ (entries : List (Nat × Key)) (st : SolutionBuilderState)
      (st2 : SolutionBuilderState) (oip : Option InvalidatedProject),
      nextInvalidated env fs fuel st entries = some (st2, oip) →
      st2.options = st.options := by
  intro entries
  induction entries with
  | nil =>
    intro st st2 oip h
    simp only [nextInvalidated] at h
    cases h
    rfl
  | cons e rest ih =>
    intro st st2 oip h
    obtain ⟨projectIndex, project⟩ := e
    simp only [nextInvalidated] at h
    cases hpend : st.projectPendingBuild.get (resolveProjectName project) with
    | none =>
      rw [hpend] at h
      exact ih _ _ _ h
    | some reloadLevel =>
      rw [hpend] at h
      simp only [] at h
      cases hparse : (parseConfigFile env st (resolveProjectName project)).2 with
      | none =>
        rw [hparse] at h
        simp only [] at h
        refine (ih _ _ _ h).trans ?_
        rw [reportParseConfigFileDiagnostic_options, parseConfigFile_options]
      | some config0 =>
        rw [hparse] at h
        simp only [] at h
        cases hst : getUpToDateStatus env fs fuel
            (parseConfigFile env st (resolveProjectName project)).1
            (some (if reloadLevel = ReloadLevel.rlPart then
              { config0 with fileNames := env.expandFileNames (resolveProjectName project) }
              else config0)) (resolveProjectName project) with
        | none => rw [hst] at h; cases h
        | some prs =>
          obtain ⟨stS, status⟩ := prs
          rw [hst] at h
          simp only [] at h
          have hSopts : stS.options = st.options :=
            (getUpToDateStatus_options env fs fuel _ _ _ _ _ hst).trans
              (parseConfigFile_options env st _)
          split at h
          · refine (ih _ _ _ h).trans ?_
            rw [reportAndStoreErrors_options]
            exact hSopts
          · cases h
            rw [reportAndStoreErrors_options]
            exact hSopts
          · cases h
            exact hSopts

theorem getNextInvalidatedProject_options (env : SolutionHost) (fs : FileSystem)
    (fuel : Nat) (st : SolutionBuilderState) (buildOrder : List Key)
    (st2 : SolutionBuilderState) (oip : Option InvalidatedProject)
    (h : getNextInvalidatedProject env fs fuel st buildOrder = some (st2, oip)) :
    st2.options = st.options :=
  nextInvalidated_options env fs fuel buildOrder.enum st st2 oip h

theorem cleanOutputs_dry (resolvedPath : Key) :
    ∀ (outputs : List String) (cp : CleanPass),
      (cleanOutputs true resolvedPath cp outputs).st = cp.st ∧
      (cleanOutputs true resolvedPath cp outputs).fs = cp.fs ∧
      (cleanOutputs true resolvedPath cp outputs).effects = cp.effects := by
  intro outputs
  induction outputs with
  | nil => intro cp; exact ⟨rfl, rfl, rfl⟩
  | cons o rest ih =>
    intro cp
    by_cases hex : fileExists cp.fs o = true
    · have hstep : cleanOutputs true resolvedPath cp (o :: rest) =
          cleanOutputs true resolvedPath
            { cp with filesToDelete := cp.filesToDelete ++ [o] } rest := by
        simp only [cleanOutputs, List.foldl_cons]
        rw [if_pos hex, if_pos trivial]
      rw [hstep]
      exact ⟨(ih _).1, (ih _).2.1, (ih _).2.2⟩
    · have hstep : cleanOutputs true resolvedPath cp (o :: rest) =
          cleanOutputs true resolvedPath cp rest := by
        simp only [cleanOutputs, List.foldl_cons]
        rw [if_neg hex]
      rw [hstep]
      exact ih cp

theorem cleanProject_dry (env : SolutionHost) (cp : CleanPass) (proj : Key) :
    (cleanProject env true cp proj).fs = cp.fs ∧
    (cleanProject env true cp proj).effects = cp.effects := by
  unfold cleanProject
  simp only []
  cases hp : (parseConfigFile env cp.st (resolveProjectName proj)).2 with
  | none => exact ⟨rfl, rfl⟩
  | some parsed =>
    exact ⟨(cleanOutputs_dry _ _ _).2.1, (cleanOutputs_dry _ _ _).2.2⟩

theorem foldl_cleanProject_dry (env : SolutionHost) (l : List Key) :
    ∀ cp, (l.foldl (cleanProject env true) cp).fs = cp.fs ∧
      (l.foldl (cleanProject env true) cp).effects = cp.effects := by
  induction l with
  | nil => intro cp; exact ⟨rfl, rfl⟩
  | cons p rest ih =>
    intro cp
    rw [List.foldl_cons]
    refine ⟨(ih _).1.trans (cleanProject_dry env cp p).1,
      (ih _).2.trans (cleanProject_dry env cp p).2⟩

theorem buildSingleProject_dry (env : SolutionHost) (bp : BuildPass)
    (proj resolvedPath : Key) (config : ParsedCommandLine)
    (hdry : bp.st.options.dry = true) :
    buildSingleProject env bp proj resolvedPath config = (bp, { success := true }) := by
  unfold buildSingleProject
  rw [if_pos hdry]

theorem updateBundle_dry (env : SolutionHost) (bp : BuildPass)
    (proj resolvedPath : Key) (config : ParsedCommandLine)
    (hdry : bp.st.options.dry = true) :
    updateBundle env bp proj resolvedPath config = Sum.inr (bp, { success := true }) := by
  unfold updateBundle
  rw [if_pos hdry]

theorem updateOutputTimestamps_dry (env : SolutionHost) (bp : BuildPass)
    (proj : ParsedCommandLine) (resolvedPath : Key)
    (hdry : bp.st.options.dry = true) :
    updateOutputTimestamps env bp proj resolvedPath = bp := by
  unfold updateOutputTimestamps
  rw [if_pos hdry]

theorem doneInvalidatedProject_dry (env : SolutionHost) (buildOrder : List Key)
    (bp : BuildPass) (ip : InvalidatedProject)
    (hdry : bp.st.options.dry = true) :
    (doneInvalidatedProject env buildOrder bp ip).fs = bp.fs ∧
    (doneInvalidatedProject env buildOrder bp ip).effects = bp.effects ∧
    (doneInvalidatedProject env buildOrder bp ip).st.options = bp.st.options := by
  unfold doneInvalidatedProject
  cases ip.kind with
  | updateOutputFileStampsKind =>
    try simp only []
    rw [updateOutputTimestamps_dry env bp ip.config ip.projectPath hdry]
    exact ⟨rfl, rfl, rfl⟩
  | buildKind =>
    try simp only []
    rw [buildSingleProject_dry env bp ip.project ip.projectPath ip.config hdry]
    refine ⟨rfl, rfl, ?_⟩
    exact queueReferencingProjects_options env ip.project ip.projectPath
      ip.projectIndex ip.config buildOrder { success := true } bp.st
  | updateBundleKind =>
    try simp only []
    rw [updateBundle_dry env bp ip.project ip.projectPath ip.config hdry]
    refine ⟨rfl, rfl, ?_⟩
    exact queueReferencingProjects_options env ip.project ip.projectPath
      ip.projectIndex ip.config buildOrder { success := true } bp.st

theorem buildLoop_dry (env : SolutionHost) (fuel : Nat) (buildOrder : List Key) :
    ∀ (loopFuel : Nat) (bp : BuildPass) (sc ec : Nat) (r : BuildPass × Nat × Nat),
      bp.st.options.dry = true →
      buildLoop env fuel buildOrder loopFuel bp sc ec = some r →
      r.1.fs = bp.fs ∧ r.1.effects = bp.effects := by
  intro loopFuel
  induction loopFuel with
  | zero => intro bp sc ec r hdry h; cases h
  | succ n ih =>
    intro bp sc ec r hdry h
    simp only [buildLoop] at h
    cases hnext : getNextInvalidatedProject env bp.fs fuel bp.st buildOrder with
    | none => rw [hnext] at h; cases h
    | some pr =>
      obtain ⟨st1, oip⟩ := pr
      rw [hnext] at h
      try simp only [] at h
      cases oip with
      | none =>
        cases h
        exact ⟨rfl, rfl⟩
      | some ip =>
        try simp only [] at h
        have hopts1 : st1.options = bp.st.options :=
          getNextInvalidatedProject_options env bp.fs fuel bp.st buildOrder st1
            (some ip) hnext
        have hdry1 : ({ bp with st := st1 } : BuildPass).st.options.dry = true := by
          show st1.options.dry = true
          rw [hopts1]
          exact hdry
        have hd := doneInvalidatedProject_dry env buildOrder { bp with st := st1 }
          ip hdry1
        have hdry2 : (doneInvalidatedProject env buildOrder { bp with st := st1 }
            ip).st.options.dry = true := by
          rw [hd.2.2]
          exact hdry1
        split at h
        · obtain ⟨h1, h2⟩ := ih _ _ _ _ hdry2 h
          exact ⟨h1.trans hd.1, h2.trans hd.2.1⟩
        · obtain ⟨h1, h2⟩ := ih _ _ _ _ hdry2 h
          exact ⟨h1.trans hd.1, h2.trans hd.2.1⟩

/-- C8. Dry-run purity: with the dry option set, clean never touches the file
system and logs no host write effect; the done handler of every invalidated
project leaves the file system and the effect log untouched; and a whole
build() run performs no writeFile, setModifiedTime or deleteFile. -/
theorem c8_dry_run_purity (env : SolutionHost) (fuel loopFuel : Nat)
    (st : SolutionBuilderState) (fs : FileSystem) (project : Option String)
    (hdry : st.options.dry = true) :
    (∀ cp e, clean env fuel st fs project = some (cp, e) →
      cp.fs = fs ∧ cp.effects = []) ∧
    (∀ (buildOrder : List Key) (bp : BuildPass) (ip : InvalidatedProject),
      bp.st.options.dry = true →
      (doneInvalidatedProject env buildOrder bp ip).fs = bp.fs ∧
      (doneInvalidatedProject env buildOrder bp ip).effects = bp.effects) ∧
    (∀ bp e, build env fuel loopFuel st fs project = some (bp, e) →
      bp.fs = fs ∧ bp.effects = []) := by
  refine ⟨?_, ?_, ?_⟩
  · intro cp e h
    unfold clean at h
    cases hbo : getBuildOrderFor env fuel st project with
    | none => rw [hbo] at h; cases h
    | some p =>
      obtain ⟨st1, obo⟩ := p
      rw [hbo] at h
      cases obo with
      | none =>
        simp only [] at h
        cases h
        exact ⟨rfl, rfl⟩
      | some buildOrder =>
        simp only [] at h
        cases h
        have hd1 : st1.options.dry = true := by
          rw [getBuildOrderFor_options env fuel st project st1 _ hbo]
          exact hdry
        rw [hd1]
        exact ⟨(foldl_cleanProject_dry env buildOrder _).1,
          (foldl_cleanProject_dry env buildOrder _).2⟩
  · intro buildOrder bp ip hdryb
    exact ⟨(doneInvalidatedProject_dry env buildOrder bp ip hdryb).1,
      (doneInvalidatedProject_dry env buildOrder bp ip hdryb).2.1⟩
  · intro bp e h
    unfold build at h
    cases hbo : getBuildOrderFor env fuel st project with
    | none => rw [hbo] at h; cases h
    | some p =>
      obtain ⟨st1, obo⟩ := p
      rw [hbo] at h
      cases obo with
      | none =>
        simp only [] at h
        cases h
        exact ⟨rfl, rfl⟩
      | some buildOrder =>
        simp only [] at h
        cases hsetup : setupInitialBuild env fuel st1 with
        | none => rw [hsetup] at h; cases h
        | some st2 =>
          rw [hsetup] at h
          simp only [Option.map_eq_some'] at h
          obtain ⟨r, hloop, hmk⟩ := h
          have hd2 : st2.options.dry = true := by
            rw [setupInitialBuild_options env fuel st1 st2 hsetup,
              getBuildOrderFor_options env fuel st project st1 _ hbo]
            exact hdry
          have hl := buildLoop_dry env fuel buildOrder loopFuel
            { st := st2, fs := fs, effects := [] } 0 0 r hd2 hloop
          cases hmk
          exact hl

/-- A fresh dry-mode state over root a. -/
def c8State : SolutionBuilderState :=
  { emptyState ["a"] with options := { dry := true } }

/-- File system for the dry-run witness: one source and one stale output. -/
def c8Fs : FileSystem :=
  [("src.ts", { mtime := 10, content := "s" }), ("out.js", { mtime := 5, content := "o" })]

theorem c8_dry_run_purity_witness :
    ∃ cp e bp e2,
      clean acyclicHost 9 c8State c8Fs none = some (cp, e) ∧
      cp.fs = c8Fs ∧ cp.effects = [] ∧
      build acyclicHost 9 9 c8State c8Fs none = some (bp, e2) ∧
      bp.fs = c8Fs ∧ bp.effects = [] := by
  obtain ⟨cp, e, hc⟩ : ∃ cp e, clean acyclicHost 9 c8State c8Fs none =
      some (cp, e) := ⟨_, _, rfl⟩
  obtain ⟨bp, e2, hb⟩ : ∃ bp e2, build acyclicHost 9 9 c8State c8Fs none =
      some (bp, e2) := ⟨_, _, rfl⟩
  have h := c8_dry_run_purity acyclicHost 9 9 c8State c8Fs none rfl
  exact ⟨cp, e, bp, e2, hc, (h.1 cp e hc).1, (h.1 cp e hc).2, hb,
    (h.2.2 bp e2 hb).1, (h.2.2 bp e2 hb).2⟩

theorem getUpToDateStatus_cached (env : SolutionHost) (fs : FileSystem)
    (fuel : Nat) (st : SolutionBuilderState) (project : ParsedCommandLine)
    (path : Key) (sv : UpToDateStatus)
    (h : st.projectStatus.get path = some sv) :
    getUpToDateStatus env fs fuel st (some project) path = some (st, sv) := by
  cases fuel with
  | zero =>
    simp only [getUpToDateStatus]
    rw [h]
  | succ n =>
    simp only [getUpToDateStatus]
    rw [h]

theorem reportAndStoreErrors_projectStatus (st : SolutionBuilderState) (proj : Key)
    (errors : List String) :
    (reportAndStoreErrors st proj errors).projectStatus = st.projectStatus := by
  unfold reportAndStoreErrors
  split <;> rfl

theorem reportAndStoreErrors_configFileCache (st : SolutionBuilderState) (proj : Key)
    (errors : List String) :
    (reportAndStoreErrors st proj errors).configFileCache = st.configFileCache := by
  unfold reportAndStoreErrors
  split <;> rfl

theorem snd_mem_of_enumFrom {α : Type} :
    ∀ (l : List α) (n : Nat) (e : Nat × α), e ∈ l.enumFrom n → e.2 ∈ l := by
  intro l
  induction l with
  | nil => intro n e h; simp [List.enumFrom] at h
  | cons a t ih =>
    intro n e h
    simp only [List.enumFrom, List.mem_cons] at h
    rcases h with h | h
    · rw [h]
      exact List.mem_cons_self _ _
    · exact List.mem_cons_of_mem _ (ih _ _ h)

theorem snd_mem_of_enum {α : Type} (l : List α) (e : Nat × α) (h : e ∈ l.enum) :
    e.2 ∈ l :=
  snd_mem_of_enumFrom l 0 e h

theorem nextInvalidated_all_up_to_date (env : SolutionHost) (fs : FileSystem)
    (fuel : Nat) :
    ∀ (entries : List (Nat × Key)) (st : SolutionBuilderState),
      st.options.force = false →
      cacheConsistent env st →
      (∀ e ∈ entries, envConfig env (resolveProjectName e.2) ≠ none ∧
        ∃ d, st.projectStatus.get (resolveProjectName e.2) = some (.upToDate d)) →
      ∃ st2, nextInvalidated env fs fuel st entries = some (st2, none) ∧
        st2.options = st.options ∧ st2.projectStatus = st.projectStatus ∧
        cacheConsistent env st2 := by
  intro entries
  induction entries with
  | nil =>
    intro st hforce hcons hall
    exact ⟨st, rfl, rfl, rfl, hcons⟩
  | cons e rest ih =>
    intro st hforce hcons hall
    obtain ⟨projectIndex, project⟩ := e
    obtain ⟨henv, d, hcached⟩ := hall (projectIndex, project) (List.mem_cons_self _ _)
    simp only [nextInvalidated]
    cases hpend : st.projectPendingBuild.get (resolveProjectName project) with
    | none =>
      exact ih st hforce hcons (fun e2 he2 => hall e2 (List.mem_cons_of_mem _ he2))
    | some rl =>
      try simp only []
      have hp := parseConfigFile_of_consistent env st (resolveProjectName project) hcons
      cases hcfg : envConfig env (resolveProjectName project) with
      | none => exact absurd hcfg henv
      | some cfg =>
        have heq : (parseConfigFile env st (resolveProjectName project)).2 = some cfg := by
          rw [hp.1, hcfg]
        rw [heq]
        try simp only []
        have hstat : getUpToDateStatus env fs fuel
            (parseConfigFile env st (resolveProjectName project)).1
            (some (if rl = ReloadLevel.rlPart then
              { cfg with fileNames := env.expandFileNames (resolveProjectName project) }
              else cfg)) (resolveProjectName project) =
            some ((parseConfigFile env st (resolveProjectName project)).1,
              .upToDate d) := by
          apply getUpToDateStatus_cached
          rw [parseConfigFile_projectStatus]
          exact hcached
        rw [hstat]
        try simp only []
        have hclass : classifyStatus
            (parseConfigFile env st (resolveProjectName project)).1 (.upToDate d)
            (if rl = ReloadLevel.rlPart then
              { cfg with fileNames := env.expandFileNames (resolveProjectName project) }
              else cfg) = NextAction.skip := by
          unfold classifyStatus
          rw [parseConfigFile_options, hforce]
          rfl
        rw [hclass]
        try simp only []
        have hopts4 : ({ reportAndStoreErrors
            (parseConfigFile env st (resolveProjectName project)).1
            (resolveProjectName project)
            (if rl = ReloadLevel.rlPart then
              { cfg with fileNames := env.expandFileNames (resolveProjectName project) }
              else cfg).errors with
            projectPendingBuild := (reportAndStoreErrors
              (parseConfigFile env st (resolveProjectName project)).1
              (resolveProjectName project)
              (if rl = ReloadLevel.rlPart then
                { cfg with fileNames := env.expandFileNames (resolveProjectName project) }
                else cfg).errors).projectPendingBuild.delete (resolveProjectName project) } :
            SolutionBuilderState).options = st.options := by
          show (reportAndStoreErrors _ _ _).options = st.options
          rw [reportAndStoreErrors_options, parseConfigFile_options]
        have hps4 : ({ reportAndStoreErrors
            (parseConfigFile env st (resolveProjectName project)).1
            (resolveProjectName project)
            (if rl = ReloadLevel.rlPart then
              { cfg with fileNames := env.expandFileNames (resolveProjectName project) }
              else cfg).errors with
            projectPendingBuild := (reportAndStoreErrors
              (parseConfigFile env st (resolveProjectName project)).1
              (resolveProjectName project)
              (if rl = ReloadLevel.rlPart then
                { cfg with fileNames := env.expandFileNames (resolveProjectName project) }
                else cfg).errors).projectPendingBuild.delete (resolveProjectName project) } :
            SolutionBuilderState).projectStatus = st.projectStatus := by
          show (reportAndStoreErrors _ _ _).projectStatus = st.projectStatus
          rw [reportAndStoreErrors_projectStatus, parseConfigFile_projectStatus]
        have hcons4 : cacheConsistent env ({ reportAndStoreErrors
            (parseConfigFile env st (resolveProjectName project)).1
            (resolveProjectName project)
            (if rl = ReloadLevel.rlPart then
              { cfg with fileNames := env.expandFileNames (resolveProjectName project) }
              else cfg).errors with
            projectPendingBuild := (reportAndStoreErrors
              (parseConfigFile env st (resolveProjectName project)).1
              (resolveProjectName project)
              (if rl = ReloadLevel.rlPart then
                { cfg with fileNames := env.expandFileNames (resolveProjectName project) }
                else cfg).errors).projectPendingBuild.delete (resolveProjectName project) } :
            SolutionBuilderState) := by
          intro k e2 he2
          have he3 : (reportAndStoreErrors
              (parseConfigFile env st (resolveProjectName project)).1
              (resolveProjectName project) _).configFileCache.get k = some e2 := he2
          rw [reportAndStoreErrors_configFileCache] at he3
          exact hp.2 k e2 he3
        obtain ⟨st2, hrec, ho2, hs2, hc2⟩ := ih _ (by rw [hopts4]; exact hforce) hcons4
          (fun e2 he2 => by
            rw [hps4]
            exact hall e2 (List.mem_cons_of_mem _ he2))
        exact ⟨st2, hrec, ho2.trans hopts4, hs2.trans hps4, hc2⟩

/-- C1. Idempotence of up-to-date, corrected: a second build is NOT always
write-free (see the counterexample with a future-dated input); what holds is
the dispatcher half of the claim: whenever every project of the build order
evaluates as UpToDate (here: its status map entry is UpToDate, which is what
the evaluator returns and memoizes for such a project), build() skips every
project, performs zero output writes, leaves the file system untouched and
exits with Success. -/
theorem c1_build_skips_all_up_to_date (env : SolutionHost) (fuel loopFuel : Nat)
    (st : SolutionBuilderState) (fs : FileSystem) (buildOrder : List Key)
    (hforce : st.options.force = false)
    (hpend : st.allProjectBuildPending = false)
    (hbo : st.buildOrder = some buildOrder)
    (hcons : cacheConsistent env st)
    (hall : ∀ p ∈ buildOrder, envConfig env (resolveProjectName p) ≠ none ∧
      ∃ d, st.projectStatus.get (resolveProjectName p) = some (.upToDate d)) :
    ∃ st2, build env fuel (Nat.succ loopFuel) st fs none =
      some ({ st := st2, fs := fs, effects := [] }, ExitStatus.success) := by
  have h1 : getBuildOrderFor env fuel st none = some (st, some buildOrder) := by
    unfold getBuildOrderFor getBuildOrder
    rw [hbo]
    rfl
  have h2 : setupInitialBuild env fuel st = some st := by
    unfold setupInitialBuild
    rw [if_pos hpend]
  obtain ⟨st2, hnext, _, _, _⟩ := nextInvalidated_all_up_to_date env fs fuel
    buildOrder.enum st hforce hcons
    (fun e he => hall e.2 (snd_mem_of_enum buildOrder e he))
  refine ⟨st2, ?_⟩
  unfold build
  rw [h1]
  try simp only []
  rw [h2]
  try simp only []
  simp only [buildLoop]
  rw [show getNextInvalidatedProject env fs fuel st buildOrder =
    some (st2, none) from hnext]
  rfl

/-- Host for the idempotence analysis: a single project p whose oracle build
emits out.js and reports no diagnostics; the host clock is 100. -/
def c1Host : SolutionHost :=
  { configs := [("p", some (mkConfig []))],
    now := 100, tsVersion := "3.5.0",
    getBuildInfoVersion := fun _ => none,
    createProgram := fun _ _ => { outputFiles := [{ name := "out.js", text := "js" }] },
    emitUsingBuildInfo := fun _ _ => Sum.inl "err",
    expandFileNames := fun _ => [] }

/-- Initial file system of the idempotence analysis: the input src.ts is dated
AFTER the host clock (a future-dated source), and no output exists. -/
def c1Fs0 : FileSystem := [("src.ts", { mtime := 1000, content := "s" })]

/-- The file system after the first build: out.js written at the host clock. -/
def c1Fs1 : FileSystem := fsWriteFile c1Fs0 "out.js" "js" 100

/-- C1 counterexample: with a future-dated input, the first build writes
out.js; a second build from a fresh builder state over the unchanged file
system writes out.js AGAIN (its status is OutOfDateWithSelf, not UpToDate), so
running build() twice is not write-free in the second invocation. -/
theorem c1_counterexample_second_build_writes :
    (build c1Host 5 5 (emptyState ["p"]) c1Fs0 none).map
      (fun r => (r.1.fs, r.1.effects, r.2)) =
      some (c1Fs1, [HostEffect.writeFile "out.js"], ExitStatus.success) ∧
    (build c1Host 5 5 (emptyState ["p"]) c1Fs1 none).map
      (fun r => (r.1.effects, r.2)) =
      some ([HostEffect.writeFile "out.js"], ExitStatus.success) ∧
    (getUpToDateStatusOfProject c1Host c1Fs1 5 (emptyState ["p"]) "p").map
      (fun pr => pr.2) =
      some (UpToDateStatus.outOfDateWithSelf "out.js" (some "src.ts")) ∧
    (∀ d, UpToDateStatus.outOfDateWithSelf "out.js" (some "src.ts") ≠
      UpToDateStatus.upToDate d) := by
  refine ⟨rfl, rfl, rfl, fun d h => by cases h⟩

/-- A state in which both projects of the acyclic host are memoized UpToDate,
the queue is consumed and the order is cached. -/
def c1StateW : SolutionBuilderState :=
  { emptyState ["a"] with
    allProjectBuildPending := false,
    buildOrder := some ["b", "a"],
    projectStatus := [("b", .upToDate { oldestOutputFileName := "o" }),
      ("a", .upToDate { oldestOutputFileName := "o" })] }

theorem c1_build_skips_all_up_to_date_witness :
    ∃ st2, build acyclicHost 9 (Nat.succ 3) c1StateW SMap.empty none =
      some ({ st := st2, fs := SMap.empty, effects := [] }, ExitStatus.success) := by
  refine c1_build_skips_all_up_to_date acyclicHost 9 3 c1StateW SMap.empty
    ["b", "a"] rfl rfl rfl (cacheConsistent_of_empty _ _ rfl) ?_
  intro p hp
  rcases List.mem_cons.mp hp with h | h
  · subst h
    exact ⟨by decide, { oldestOutputFileName := "o" }, rfl⟩
  · rcases List.mem_cons.mp h with h2 | h2
    · subst h2
      exact ⟨by decide, { oldestOutputFileName := "o" }, rfl⟩
    · exact absurd h2 (List.not_mem_nil p)

end TsBuild
